import Mathlib

/-!
Verification development for the PBarber proof-log trimmer and justifier.

The definitions below are a shallow embedding of the Rust sources
(`src/trimmer.rs`, `src/justifier.rs`, `src/justifier/int_var_def.rs`,
`src/justifier/int_linear.rs`, `src/main.rs`, `src/cp_lit_map.rs`).
Pure string manipulation is kept at the string level; external crates
(pboxide, flatzinc_serde, serde) are modelled as oracles / plain data,
following the spec's data model (spec.md §3, §6).
-/

namespace PBarber

/-! ## String primitives

Rust string operations (`starts_with`, `ends_with`, `split`, `splitn`,
`trim`, `parse`, `trim_end_matches`) are modelled structurally on character
lists so that every definition evaluates inside the kernel. The proof-log
inputs use plain spaces, so `trim` only needs to strip spaces. -/

/-- Rust `str::starts_with`: the first list is the candidate text, the second
argument of `chStarts` is consumed first. `chStarts p s` is true iff `p` is an
initial segment of `s`. -/
def chStarts : List Char → List Char → Bool
  | [], _ => true
  | _ :: _, [] => false
  | p :: ps, c :: cs => p == c && chStarts ps cs

/-- Rust `str::starts_with` on strings. -/
def strStarts (s p : String) : Bool := chStarts p.toList s.toList

/-- Rust `str::ends_with` on strings. -/
def strEnds (s p : String) : Bool := chStarts p.toList.reverse s.toList.reverse

/-- Rust `str::split` with a single-character separator. -/
def splitCh (sep : Char) : List Char → List (List Char)
  | [] => [[]]
  | c :: cs =>
    if c == sep then [] :: splitCh sep cs
    else
      match splitCh sep cs with
      | [] => [[c]]
      | g :: gs => (c :: g) :: gs

/-- Rust `str::split` on strings (single-character separator). -/
def strSplitCh (sep : Char) (s : String) : List String :=
  (splitCh sep s.toList).map String.mk

/-- Rust `splitn(2, " a ")`: split at the first occurrence of `" a "`,
`none` when there is no occurrence (the iterator then yields only the whole
string). -/
def splitASpace : List Char → Option (List Char × List Char)
  | ' ' :: 'a' :: ' ' :: rest => some ([], rest)
  | c :: cs =>
    match splitASpace cs with
    | none => none
    | some p => some (c :: p.1, p.2)
  | [] => none

/-- Rust `str::trim` (proof-log lines contain only space whitespace). -/
def strTrim (s : String) : String :=
  String.mk (((s.toList.dropWhile (fun c => c == ' ')).reverse.dropWhile
    (fun c => c == ' ')).reverse)

/-- Decimal digit accumulation for `parse`. -/
def chDigitsAux : List Char → Nat → Option Nat
  | [], acc => some acc
  | c :: cs, acc => if c.isDigit then chDigitsAux cs (acc * 10 + (c.toNat - 48)) else none

/-- Rust `parse::<usize>` (on the digit strings the tool feeds it). -/
def strToNatQ (s : String) : Option Nat :=
  match s.toList with
  | [] => none
  | c :: cs => chDigitsAux (c :: cs) 0

/-- Rust `parse::<i64>` / `parse::<i32>`: optional sign, then digits. -/
def strToIntQ (s : String) : Option Int :=
  match s.toList with
  | '-' :: rest =>
    (match rest with
     | [] => none
     | c :: cs => (chDigitsAux (c :: cs) 0).map (fun n => -(n : Int)))
  | '+' :: rest =>
    (match rest with
     | [] => none
     | c :: cs => (chDigitsAux (c :: cs) 0).map (fun n => (n : Int)))
  | [] => none
  | c :: cs => (chDigitsAux (c :: cs) 0).map (fun n => (n : Int))

/-- Bit length with explicit fuel, so that it is structural and evaluates in
the kernel; `bitLen n` is the number of binary digits of `n`
(`64 - leading_zeros` on a `u64`). -/
def bitLenAux : Nat → Nat → Nat
  | 0, _ => 0
  | fuel + 1, n => if n = 0 then 0 else bitLenAux fuel (n / 2) + 1

/-- Bit length of a natural number. -/
def bitLen (n : Nat) : Nat := bitLenAux n n

/-- Error type of the tool (`PBarberError`; the enum declaration lives in the
crate root, outside `src/`). Modelled from the spec: variants follow the error
taxonomy of spec.md §7. `panicked` additionally models Rust panics
(`unwrap` / `expect` / `assert!`). -/
inductive PBErr where
  | io
  | unexpectedLineStart
  | malformedConstraintId
  | unknownRule
  | missingConclusion
  | parseFailure
  | justificationError (msg : String)
  | literalLookupError (msg : String)
  | panicked (msg : String)
deriving DecidableEq, Repr

/-- `TrimmerConfig` from the crate root (spec.md §6): the three trimmer flags. -/
structure TrimmerConfig where
  eager_deletion : Bool := false
  stats : Bool := false
  lit_deletion : Bool := false
deriving DecidableEq, Repr

/-- The rule tail of an `@id …` proof line, as accessed by `Trimmer::trim`:
for `pol`/`p` the space-separated tokens after the rule word, for `a` all
space-separated tokens of the line (the source re-splits the whole line),
and `other` for any other rule word (which trips the
`assert!(ALLOWED_RULES.contains(&rule))` in the source). -/
inductive Rul where
  | pol (terms : List String)
  | a (toks : List String)
  | other (rule : String)
deriving DecidableEq, Repr

/-- One input proof line, classified exactly as `Trimmer::trim` classifies raw
strings: `endProof` for lines starting `end pseudo-Boolean`, `conclusionUnsat`
carrying the contradiction id the source extracts
(`split(":").nth(1).split(";").nth(0).trim()`), `output` for `output …` lines,
`labelled` for lines starting `@`, `preamble` for lines starting `f` or
`pseudo-Boolean`, `del` for `del id …` lines carrying the tokens after
`del id`, and `comment` for everything else. -/
inductive PLine where
  | endProof
  | conclusionUnsat (id : String)
  | output (s : String)
  | labelled (id : String) (rule : Rul)
  | preamble (s : String)
  | del (toks : List String)
  | comment (s : String)
deriving DecidableEq, Repr

/-- The trimmer's mutable sets (`Trimmer` struct fields). -/
structure TState where
  marked_for_output : List String
  marked_for_deletion : List String
  lits_seen : List String
deriving DecidableEq, Repr

/-- The operand loop of the `pol` branch of `Trimmer::trim`: skip `+`/`s`/`;`,
check the `@` tag (`assert_starts_with`), and for unmarked operands emit a
`del id … ;` line when eager deletion is on or the operand was marked for
deferred deletion, then mark the operand. -/
def processPolTerms (cfg : TrimmerConfig) (st : TState) :
    List String → Except PBErr (TState × List PLine)
  | [] => .ok (st, [])
  | t :: ts =>
    if t == "+" || t == "s" || t == ";" then processPolTerms cfg st ts
    else if !(strStarts t "@") then .error .unexpectedLineStart
    else if st.marked_for_output.contains t then processPolTerms cfg st ts
    else
      let dels : List PLine :=
        if cfg.eager_deletion || st.marked_for_deletion.contains t then
          [PLine.del [t, ";"]] else []
      match processPolTerms cfg { st with marked_for_output := t :: st.marked_for_output } ts with
      | .ok (st', out) => .ok (st', dels ++ out)
      | .error e => .error e

/-- The `lit_deletion` branch of the `a` rule in `Trimmer::trim`: scan tokens
up to `>=`, strip a leading `~`, and for each unseen `x…` variable emit the
two literal-definition deletion lines `del id @lf<lit>` / `del id @lr<lit>`
(constants `FORWARD_LIT_DEF_PREFIX = "lf"`, `REVERSE_LIT_DEF_PREFIX = "lr"`). -/
def processLits (st : TState) : List String → TState × List PLine
  | [] => (st, [])
  | tok :: rest =>
    if tok == ">=" then (st, [])
    else
      let lit := if strStarts tok "~" then tok.drop 1 else tok
      if !(strStarts lit "x") || st.lits_seen.contains lit then processLits st rest
      else
        let st1 := { st with lits_seen := lit :: st.lits_seen }
        match processLits st1 rest with
        | (st2, out) => (st2, PLine.del ["@lf" ++ lit] :: PLine.del ["@lr" ++ lit] :: out)

/-- The main `while let` loop of `Trimmer::trim` over the remaining
(reverse-order) lines. Returns the final state and the emitted lines, in
emission (reverse-file) order. For an input `del id` line the source takes
token 2 and, when it ends in `;`, keeps all but its last two bytes
(`&id[..id.len() - 2]`). -/
def trimLoop (cfg : TrimmerConfig) (st : TState) :
    List PLine → Except PBErr (TState × List PLine)
  | [] => .ok (st, [])
  | line :: rest =>
    match line with
    | .labelled id rule =>
      if st.marked_for_output.contains id then
        match rule with
        | .pol terms =>
          match processPolTerms cfg st terms with
          | .error e => .error e
          | .ok (st1, dels) =>
            match trimLoop cfg st1 rest with
            | .error e => .error e
            | .ok (st2, out) => .ok (st2, dels ++ line :: out)
        | .a toks =>
          let sd := if cfg.lit_deletion then processLits st toks else (st, [])
          match trimLoop cfg sd.1 rest with
          | .error e => .error e
          | .ok (st2, out) => .ok (st2, sd.2 ++ line :: out)
        | .other _ => .error .unknownRule
      else trimLoop cfg st rest
    | .preamble _ =>
      match trimLoop cfg st rest with
      | .error e => .error e
      | .ok (st2, out) => .ok (st2, line :: out)
    | .del toks =>
      if cfg.eager_deletion then trimLoop cfg st rest
      else
        match toks with
        | [] => .error (.panicked "del id line without id")
        | tok :: _ =>
          let tid := if strEnds tok ";" then tok.dropRight 2 else tok
          trimLoop cfg { st with marked_for_deletion := tid :: st.marked_for_deletion } rest
    | _ => trimLoop cfg st rest

/-- `Trimmer::trim`: consume `end pseudo-Boolean`, `conclusion UNSAT : <id> ;`
(marking the contradiction id) and `output …`, writing each, then run the main
loop. A first line that is not `end pseudo-Boolean` is `MissingConclusion`;
a malformed header is `UnexpectedLineStart`. Input lines are in reverse file
order (the `RevBufReader`); output lines are in emission order, which the
plumbing in `main.rs` re-reverses. -/
def trim (cfg : TrimmerConfig) : List PLine → Except PBErr (List PLine)
  | PLine.endProof :: rest =>
    match rest with
    | PLine.conclusionUnsat cid :: rest2 =>
      match rest2 with
      | PLine.output s :: rest3 =>
        match trimLoop cfg ⟨[cid], [], []⟩ rest3 with
        | .error e => .error e
        | .ok (_, out) =>
          .ok (PLine.endProof :: PLine.conclusionUnsat cid :: PLine.output s :: out)
      | _ => .error .unexpectedLineStart
    | _ => .error .unexpectedLineStart
  | _ => .error .missingConclusion

/-- `run_trimmer` in `main.rs` replaces a config that has `lit_deletion` set
by one where it is cleared (printing a warning) before running the trimmer. -/
def effectiveTrimmerConfig (cfg : TrimmerConfig) : TrimmerConfig :=
  if cfg.lit_deletion then { cfg with lit_deletion := false } else cfg

/-- `run_trimmer` from `main.rs` (ignoring the statistics plumbing):
trim with the effective configuration. -/
def run_trimmer (cfg : TrimmerConfig) (lines : List PLine) : Except PBErr (List PLine) :=
  trim (effectiveTrimmerConfig cfg) lines

/-- The operand ids of a `pol` term list: every token that is not `+`, `s`
or `;`. -/
def polOperands (terms : List String) : List String :=
  terms.filter (fun t => !(t == "+" || t == "s" || t == ";"))

/-- The ids of the `@`-labelled lines of a line list, in order. -/
def labelledIds : List PLine → List String
  | [] => []
  | PLine.labelled id _ :: rest => id :: labelledIds rest
  | _ :: rest => labelledIds rest

/-- Transitive liveness (the `live` set of spec.md P1): ids reachable from the
base set by repeatedly following the operand lists of `pol` lines. -/
inductive LiveFrom (base : List String) (ls : List PLine) : String → Prop where
  | base {id : String} : id ∈ base → LiveFrom base ls id
  | step {id o : String} {terms : List String} :
      LiveFrom base ls id → PLine.labelled id (Rul.pol terms) ∈ ls →
      o ∈ polOperands terms → LiveFrom base ls o

/-- Well-formedness: every `pol` operand refers to a labelled line strictly
later in the reverse-order list (i.e. earlier in the file). -/
def polRefsForward : List PLine → Bool
  | [] => true
  | PLine.labelled _ (Rul.pol terms) :: rest =>
    (polOperands terms).all (fun o => (labelledIds rest).contains o) && polRefsForward rest
  | _ :: rest => polRefsForward rest

/-- Well-formedness: every `pol` operand token starts with `@`. -/
def operandsTagged : List PLine → Bool
  | [] => true
  | PLine.labelled _ (Rul.pol terms) :: rest =>
    (polOperands terms).all (fun o => strStarts o "@") && operandsTagged rest
  | _ :: rest => operandsTagged rest

/-- Well-formedness: no labelled line carries a rule outside `ALLOWED_RULES`. -/
def noOtherRules : List PLine → Bool
  | [] => true
  | PLine.labelled _ (Rul.other _) :: _ => false
  | _ :: rest => noOtherRules rest

/-- Well-formedness: every input `del id` line has at least one token after
`del id`. -/
def delsWellFormed : List PLine → Bool
  | [] => true
  | PLine.del [] :: _ => false
  | _ :: rest => delsWellFormed rest

/-! ## Justifier data model (`src/cp_lit_map.rs`, external pboxide / flatzinc types) -/

/-- `CPVarType` from `src/cp_lit_map.rs`. -/
inductive CPVarType where
  | intVar
  | boolVar
deriving DecidableEq, Repr

/-- `CPOperator` from `src/cp_lit_map.rs`. -/
inductive CPOperator where
  | less
  | greaterEqual
  | equal
  | notEqual
deriving DecidableEq, Repr

/-- `CPOperator::negated`. -/
def CPOperator.negated : CPOperator → CPOperator
  | .less => .greaterEqual
  | .greaterEqual => .less
  | .equal => .notEqual
  | .notEqual => .equal

/-- `CPLitData` from `src/cp_lit_map.rs`. -/
inductive CPLitData where
  | condition (cpvartype : CPVarType) (name : String) (operator : CPOperator) (value : String)
  | boolvar (cpvartype : CPVarType) (name : String)
deriving DecidableEq, Repr

/-- Modelled from the spec: `CPLitData::get_name`, used by
`src/justifier/int_linear.rs`, whose impl is outside `src/`; per spec.md §3
it returns the entry's CP variable name field. -/
def CPLitData.get_name : CPLitData → String
  | .condition _ n _ _ => n
  | .boolvar _ n => n

/-- PB literal (external pboxide `Lit`, per spec.md §3): a variable together
with a negation flag. The `VarNameManager` indirection is collapsed: the
literal carries its textual name directly, so
`pb_var_names.get_name(lit.get_var())` is `name`. -/
structure PBLit where
  name : String
  negated : Bool
deriving DecidableEq, Repr

/-- `Lit::negate` flips the flag. -/
def PBLit.negate (l : PBLit) : PBLit := { l with negated := !l.negated }

/-- pboxide pretty form of a literal: `x` or `~x`. -/
def PBLit.pretty (l : PBLit) : String := (if l.negated then "~" else "") ++ l.name

/-- PB constraint (external pboxide `DynPBConstraint`, per spec.md §3) in the
canonical `>=` shape used by the proof lines in the claims: weighted terms and
an integer right-hand side. -/
structure PBConstraint where
  terms : List (Int × PBLit)
  rhs : Int
deriving DecidableEq, Repr

/-- `get_constraint_lits`: the literals of the constraint, in order. -/
def PBConstraint.get_constraint_lits (c : PBConstraint) : List PBLit := c.terms.map (·.2)

/-- `to_pretty_string`: `"<c1> <lit1> <c2> <lit2> … >= <rhs>"`, with no
trailing semicolon (the source appends `;` itself where needed, and
strips any with `trim_sc` defensively). -/
def PBConstraint.to_pretty_string (c : PBConstraint) : String :=
  String.join (c.terms.map (fun t => toString t.1 ++ " " ++ t.2.pretty ++ " ")) ++
    ">= " ++ toString c.rhs

/-- flatzinc_serde `Literal`. -/
inductive FznLit where
  | int (val : Int)
  | identifier (id : String)
  | other
deriving DecidableEq, Repr

/-- flatzinc_serde `Argument`. -/
inductive FznArg where
  | array (contents : List FznLit)
  | literal (l : FznLit)
deriving DecidableEq, Repr

/-- flatzinc_serde `Constraint`: family id and argument list. -/
structure FznConstraint where
  id : String
  args : List FznArg
deriving DecidableEq, Repr

/-- flatzinc_serde `Domain`: an integer interval list, or a float domain. -/
inductive FznDomain where
  | int (intervals : List (Int × Int))
  | float
deriving DecidableEq, Repr

/-- flatzinc_serde `Variable` (only the domain is read). -/
structure FznVariable where
  domain : Option FznDomain
deriving DecidableEq, Repr

/-- The read-only oracles of the justifier (spec.md §3): the literal map, the
FlatZinc tables, and the external pboxide OPB constraint parser
(`parse_single_constraint`). -/
structure JEnv where
  litMap : String → Option CPLitData
  fznVariables : String → Option FznVariable
  fznArrays : String → Option (List FznLit)
  fznConstraints : List FznConstraint
  parsePB : String → Option PBConstraint

/-- `IntLinearJustifier` struct fields (`src/justifier/int_linear.rs`). -/
structure IntLinearData where
  constraint_name : String
  fzn_id : String
  coeffs : List Int
  vars : List String
  rhs : Int
  reif_implies_le : Option String
  reif_implies_ge : Option String
deriving DecidableEq, Repr

/-- The two family justifiers installable by `install_justifier`. -/
inductive JustifierObj where
  | intVarDef
  | intLinear (d : IntLinearData)
deriving DecidableEq, Repr

/-- The justifier's mutable dictionaries (`Justifier` struct fields):
`defined_lits`, `defined_bounds`, and the (never written, `cache = false`)
`justifiers` cache keyed by antecedent string. -/
structure JState where
  defined_lits : List PBLit
  defined_bounds : List String
  justifiers : List (String × JustifierObj)
deriving DecidableEq, Repr

/-! ## Bit encodings (`num_bits_for_range`, `cp_var_bits_str`) -/

/-- `num_bits_for_range` from `src/justifier.rs`: `64 - leading_zeros(t)` on a
`u64` value `t` is its bit length `bitLen t`. For `min >= 0` the value is
`max + 1`; otherwise `max(|min|, |max|) + 1` (the source does NOT add an
extra sign bit here). -/
def num_bits_for_range (minv maxv : Int) : Nat :=
  if 0 ≤ minv then bitLen (maxv + 1).toNat
  else bitLen (max maxv.natAbs minv.natAbs + 1)

/-- One weighted-bit chunk of the encoding string: `"<2^i·m> <V>_b<i>"`. -/
def bitChunk (cpvar : String) (m : Int) (i : Nat) : String :=
  toString ((2 ^ i : Int) * m) ++ " " ++ cpvar ++ "_b" ++ toString i

/-- The descending loop of `cp_var_bits_str`: chunks for bit indices `n` down
to `0`, space separated. (The source pushes a space before every chunk and
then trims the leading one off; we build the trimmed string directly.) -/
def chunksDesc (cpvar : String) (m : Int) : Nat → String
  | 0 => bitChunk cpvar m 0
  | n + 1 => bitChunk cpvar m (n + 1) ++ " " ++ chunksDesc cpvar m n

/-- The string built by `cp_var_bits_str` for a domain `[minv, maxv]` with
multiplier `m`. With `nb = num_bits_for_range minv maxv`: for `minv < 0` a
sign chunk of weight `2^nb * (-m)` named `<V>_b<nb+1>` followed by chunks for
bits `nb - 1` down to `0`; otherwise chunks for bits `nb` down to `0`
(the loop is `for i in (0..num_bits + 1).rev()`). -/
def bitsStrCore (minv maxv : Int) (cpvar : String) (m : Int) : String :=
  let nb := num_bits_for_range minv maxv
  if minv < 0 then
    toString ((2 ^ nb : Int) * (-m)) ++ " " ++ cpvar ++ "_b" ++ toString (nb + 1) ++ " " ++
      chunksDesc cpvar m (nb - 1)
  else chunksDesc cpvar m nb

/-- The (coefficient, variable-name) pairs underlying `chunksDesc`. -/
def termChunksDesc (cpvar : String) (m : Int) : Nat → List (Int × String)
  | 0 => [((2 ^ 0 : Int) * m, cpvar ++ "_b" ++ toString (0 : Nat))]
  | n + 1 =>
    ((2 ^ (n + 1) : Int) * m, cpvar ++ "_b" ++ toString (n + 1)) :: termChunksDesc cpvar m n

/-- The (coefficient, variable-name) pairs of the bit vector emitted by
`cp_var_bits_str` (same cases as `bitsStrCore`). -/
def cp_var_bits_terms (minv maxv : Int) (cpvar : String) (m : Int) : List (Int × String) :=
  let nb := num_bits_for_range minv maxv
  if minv < 0 then
    ((2 ^ nb : Int) * (-m), cpvar ++ "_b" ++ toString (nb + 1)) :: termChunksDesc cpvar m (nb - 1)
  else termChunksDesc cpvar m nb

/-- Space join. -/
def joinSp : List String → String
  | [] => ""
  | [x] => x
  | x :: y :: rest => x ++ " " ++ joinSp (y :: rest)

/-- `min_max` from `src/justifier.rs`: first interval's start, and the last
interval's end (or the first's end when there is only one interval). -/
def min_max (intervals : List (Int × Int)) : Option (Int × Int) :=
  match intervals with
  | [] => none
  | first :: rest => some (first.1, ((rest.getLast?).map (·.2)).getD first.2)

/-- `get_min_max_for_var` from `src/justifier.rs`. -/
def get_min_max_for_var (env : JEnv) (v : String) : Except PBErr (Int × Int) :=
  match env.fznVariables v with
  | none => .error (.justificationError ("Expected variable, but got " ++ v))
  | some fzn_var =>
    match fzn_var.domain with
    | none =>
      .error (.justificationError
        ("No domain found for " ++ v ++ " in the fzn file (unsupported)."))
    | some FznDomain.float =>
      .error (.justificationError
        ("Expected Int domain for " ++ v ++ " but found Float (unsupported)."))
    | some (FznDomain.int r) =>
      match min_max r with
      | none =>
        .error (.justificationError ("Couldn't get the min and max domain values for " ++ v))
      | some mm => .ok mm

/-- `cp_var_bits_str` from `src/justifier.rs`. -/
def cp_var_bits_str (env : JEnv) (v : String) (m : Int) : Except PBErr String :=
  match get_min_max_for_var env v with
  | .error e => .error e
  | .ok mm => .ok (bitsStrCore mm.1 mm.2 v m)

/-! ## Literal definitions and bound axioms -/

/-- `definition_id`: `@lf<name>` for a positive, `@lr<name>` for a negated
literal. -/
def definition_id (l : PBLit) : String :=
  "@" ++ (if l.negated then "lr" else "lf") ++ l.name

/-- `trim_sc`: strip all trailing semicolons (`trim_end_matches(';')`). -/
def trim_sc (s : String) : String :=
  String.mk ((s.toList.reverse.dropWhile (fun c => c == ';')).reverse)

/-- `ensure_bounds_defined` from `src/justifier.rs`: idempotent via
`defined_bounds` (the variable is inserted before the domain lookup, as in
the source); on first use emits the `@lb<V>` / `@ub<V>` axiom lines. -/
def ensure_bounds_defined (env : JEnv) (v : String) (st : JState) :
    JState × List String × Except PBErr (String × String) :=
  let lb_id := "@lb" ++ v
  let ub_id := "@ub" ++ v
  if st.defined_bounds.contains v then (st, [], .ok (lb_id, ub_id))
  else
    let st1 := { st with defined_bounds := v :: st.defined_bounds }
    match get_min_max_for_var env v with
    | .error e => (st1, [], .error e)
    | .ok mm =>
      match cp_var_bits_str env v 1 with
      | .error e => (st1, [], .error e)
      | .ok bits1 =>
        let lb_line := lb_id ++ " a " ++ bits1 ++ " >=" ++ toString mm.1 ++ ":: bits_lower_bound ;"
        match cp_var_bits_str env v 1 with
        | .error e => (st1, [lb_line], .error e)
        | .ok bits2 =>
          let ub_line :=
            ub_id ++ " a " ++ bits2 ++ " <=" ++ toString mm.2 ++ ":: bits_upper_bound ;"
          (st1, [lb_line, ub_line], .ok (lb_id, ub_id))

/-- `ensure_lit_defined` from `src/justifier.rs`. Returns the updated state,
the emitted lines, and the result. Note the Boolvar branch's final
`return Ok("".to_string())`, and the dead first-split fallback
(`String::split` always yields a first chunk) returning the pretty literal. -/
def ensure_lit_defined (env : JEnv) (l : PBLit) (st : JState) :
    JState × List String × Except PBErr String :=
  let def_id := definition_id l
  if st.defined_lits.contains l then (st, [], .ok def_id)
  else
    match env.litMap l.name with
    | none =>
      (st, [], .error (.literalLookupError ("Couldn't find CP definition for literal " ++ l.name)))
    | some cp_lit_data =>
      let tilde_if_neg := if l.negated then "~" else " "
      match cp_lit_data with
      | CPLitData.condition _ nm op value =>
        let op1 := if l.negated then op.negated else op
        match op1 with
        | CPOperator.equal =>
          (st, [], .error (.justificationError "Can't handle equality literals yet."))
        | CPOperator.notEqual =>
          (st, [], .error (.justificationError "Can't handle equality literals yet."))
        | opOk =>
          match strToIntQ value with
          | none => (st, [], .error (.panicked "literal value did not parse"))
          | some v0 =>
            let vo : Int × String :=
              match opOk with
              | CPOperator.greaterEqual => (v0, ">=")
              | _ => (v0 - 1, "<=")
            match cp_var_bits_str env nm 1 with
            | .error e => (st, [], .error e)
            | .ok bits =>
              let line := def_id ++ " red " ++ tilde_if_neg ++ l.name ++ " ==> " ++ bits ++ " " ++
                vo.2 ++ " " ++ toString vo.1 ++ " : " ++ l.name ++ " -> " ++
                (if l.negated then "1" else "0") ++ " ;"
              ({ st with defined_lits := l :: st.defined_lits }, [line], .ok def_id)
      | CPLitData.boolvar _ nm =>
        match strSplitCh '=' nm with
        | [] => (st, [], .ok l.pretty)
        | [_] =>
          (st, [],
            .error (.justificationError
              ("Found Boolvar " ++ nm ++ " with '=' in name, but couldn't parse value")))
        | var :: valStr :: _ =>
          match strToIntQ valStr with
          | none =>
            (st, [],
              .error (.justificationError
                ("Found Boolvar " ++ nm ++ " with '=' in name, but couldn't parse value")))
          | some val0 =>
            match ensure_bounds_defined env var st with
            | (st1, o1, .error e) => (st1, o1, .error e)
            | (st1, o1, .ok _) =>
              match cp_var_bits_str env var 1 with
              | .error e => (st1, o1, .error e)
              | .ok bits =>
                match get_min_max_for_var env var with
                | .error e => (st1, o1, .error e)
                | .ok mm =>
                  if val0 = mm.1 then
                    let vo : Int × String :=
                      if l.negated then (val0 + 1, ">=") else (val0, "<=")
                    let line := def_id ++ " red " ++ tilde_if_neg ++ l.name ++ " ==> " ++ bits ++
                      " " ++ vo.2 ++ " " ++ toString vo.1 ++ " : " ++ l.name ++ " -> " ++
                      (if l.negated then "1" else "0") ++ " ;"
                    ({ st1 with defined_lits := l :: st1.defined_lits }, o1 ++ [line], .ok "")
                  else if val0 = mm.2 then
                    let vo : Int × String :=
                      if l.negated then (val0 - 1, "<=") else (val0, ">=")
                    let line := def_id ++ " red " ++ tilde_if_neg ++ l.name ++ " ==> " ++ bits ++
                      " " ++ vo.2 ++ " " ++ toString vo.1 ++ " : " ++ l.name ++ " -> " ++
                      (if l.negated then "1" else "0") ++ " ;"
                    ({ st1 with defined_lits := l :: st1.defined_lits }, o1 ++ [line], .ok "")
                  else
                    (st1, o1,
                      .error (.justificationError
                        ("Found Boolvar " ++ nm ++ " with more than two values in its domain.")))

/-- `ensure_all_lits_defined` from `src/justifier.rs`: for each constraint
literal ensure the literal itself and its negation are defined; a
`LiteralLookupError` is fatal only in strict mode, any other error always is. -/
def ensure_all_lits_defined (env : JEnv) (strict : Bool) :
    List PBLit → JState → JState × List String × Except PBErr (List String × List String)
  | [], st => (st, [], .ok ([], []))
  | l :: rest, st =>
    match ensure_lit_defined env l st with
    | (st1, o1, r1) =>
      let posStep : Except PBErr (Option String) :=
        match r1 with
        | .ok id => .ok (some id)
        | .error (PBErr.literalLookupError m) =>
          if strict then .error (.literalLookupError m) else .ok none
        | .error e => .error e
      match posStep with
      | .error e => (st1, o1, .error e)
      | .ok posId =>
        match ensure_lit_defined env (PBLit.negate l) st1 with
        | (st2, o2, r2) =>
          let negStep : Except PBErr (Option String) :=
            match r2 with
            | .ok id => .ok (some id)
            | .error (PBErr.literalLookupError m) =>
              if strict then .error (.literalLookupError m) else .ok none
            | .error e => .error e
          match negStep with
          | .error e => (st2, o1 ++ o2, .error e)
          | .ok negId =>
            match ensure_all_lits_defined env strict rest st2 with
            | (st3, o3, .error e) => (st3, o1 ++ o2 ++ o3, .error e)
            | (st3, o3, .ok pn) =>
              (st3, o1 ++ o2 ++ o3, .ok (posId.toList ++ pn.1, negId.toList ++ pn.2))

/-! ## PolBuilder -/

/-- `PolBuilder` from `src/justifier.rs`. -/
structure PolBuilder where
  pol_line : String
  empty : Bool

/-- `PolBuilder::new`. -/
def PolBuilder.new : PolBuilder := { pol_line := "pol ", empty := true }

/-- `PolBuilder::done`. -/
def PolBuilder.done (b : PolBuilder) : String := b.pol_line ++ ";"

/-- `PolBuilder::add`: pushes the term, then a single space for the first term
and `" + "` after every later term (reverse-polish output). -/
def PolBuilder.add (b : PolBuilder) (term : String) : PolBuilder :=
  let l := b.pol_line ++ term
  if b.empty then { pol_line := l ++ " ", empty := false }
  else { pol_line := l ++ " + ", empty := b.empty }

/-- `PolBuilder::add_all`. -/
def PolBuilder.add_all (b : PolBuilder) (terms : List String) : PolBuilder :=
  terms.foldl PolBuilder.add b

/-- `PolBuilder::add_weighted`: pushes `"<term> <weight> *"` then the same
separator logic as `add`. The weight comes from `coeff.abs() as u32`, hence
the `% 2 ^ 32` truncation. -/
def PolBuilder.add_weighted (b : PolBuilder) (term : String) (weight : Nat) : PolBuilder :=
  let l := b.pol_line ++ term ++ " " ++ toString weight ++ " *"
  if b.empty then { pol_line := l ++ " ", empty := false }
  else { pol_line := l ++ " + ", empty := b.empty }

/-! ## Per-family justifiers -/

/-- `IntVarDefJustifier::justify` from `src/justifier/int_var_def.rs`:
strict definition of all literals, at most two, a `pol` line summing the
negation-definition ids, then the `ia` step. -/
def int_var_def_justify (env : JEnv) (c : PBConstraint) (id_str : String) (st : JState) :
    JState × List String × Except PBErr Unit :=
  match ensure_all_lits_defined env true c.get_constraint_lits st with
  | (st1, o1, .error e) => (st1, o1, .error e)
  | (st1, o1, .ok pn) =>
    if pn.2.length > 2 then
      (st1, o1, .error (.justificationError "IntVarDef with more than 2 lits"))
    else
      let pol_line := (PolBuilder.add_all PolBuilder.new pn.2).done
      let imp_line := id_str ++ " ia " ++ trim_sc c.to_pretty_string ++ " : -1;"
      (st1, o1 ++ [pol_line, imp_line], .ok ())

/-- `trim_start_matches("@f")`: repeatedly strip a leading `@f`. -/
def stripAtF : List Char → List Char
  | '@' :: 'f' :: rest => stripAtF rest
  | l => l

/-- `get_fzn_constraint` from `src/justifier.rs`: trim, strip `@f`, parse the
line number, index into the FlatZinc constraint table. -/
def get_fzn_constraint (env : JEnv) (fzn_id : String) : Except PBErr FznConstraint :=
  match strToNatQ (String.mk (stripAtF (strTrim fzn_id).toList)) with
  | none =>
    .error (.justificationError ("Failed to get line number from fzn_id `" ++ fzn_id ++ "`"))
  | some n =>
    match env.fznConstraints.get? n with
    | none => .error (.justificationError ("Couldn't find fzn constraint for id " ++ fzn_id))
    | some fc => .ok fc

/-- The integer-coefficient extraction loop of `IntLinearJustifier::new`. -/
def intsOf : List FznLit → Except PBErr (List Int)
  | [] => .ok []
  | FznLit.int v :: rest =>
    match intsOf rest with
    | .error e => .error e
    | .ok l => .ok (v :: l)
  | _ :: _ => .error (.justificationError "IntLinear: coeff should be integer but got other")

/-- The variable-identifier extraction loop of `IntLinearJustifier::new`
(the source reuses the coeff error message here). -/
def identsOf : List FznLit → Except PBErr (List String)
  | [] => .ok []
  | FznLit.identifier v :: rest =>
    match identsOf rest with
    | .error e => .error e
    | .ok l => .ok (v :: l)
  | _ :: _ => .error (.justificationError "IntLinear: coeff should be integer but got other")

/-- The per-variable segment loop of `encode_lin`: a space then the variable's
bit string with the coefficient as multiplier, for each (coeff, var) pair. -/
def encodeBitsSegs (env : JEnv) : List (Int × String) → Except PBErr String
  | [] => .ok ""
  | cv :: rest =>
    match cp_var_bits_str env cv.2 cv.1 with
    | .error e => .error e
    | .ok b =>
      match encodeBitsSegs env rest with
      | .error e => .error e
      | .ok s => .ok (" " ++ b ++ s)

/-- `IntLinearJustifier::encode_lin`: the emitted axiom line
`<id> a <segments> <operator> <rhs> :: <family>;`. -/
def encode_lin (env : JEnv) (d : IntLinearData) (operator : String) (id : String) :
    Except PBErr String :=
  match encodeBitsSegs env (d.coeffs.zip d.vars) with
  | .error e => .error e
  | .ok segs =>
    .ok (id ++ " a" ++ segs ++ " " ++ operator ++ " " ++ toString d.rhs ++ " :: " ++
      d.constraint_name ++ ";")

/-- `IntLinearJustifier::encode`: one `_le` axiom for `int_lin_le`, the `_le`
then `_ge` axioms for `int_lin_eq`. Returns the written lines and the data
with the encoded ids recorded. -/
def IntLinearData.encode (env : JEnv) (d : IntLinearData) :
    List String × Except PBErr IntLinearData :=
  match d.constraint_name with
  | "int_lin_le" =>
    match encode_lin env d "<=" (d.fzn_id ++ "_le") with
    | .error e => ([], .error e)
    | .ok leLine => ([leLine], .ok { d with reif_implies_le := some (d.fzn_id ++ "_le") })
  | "int_lin_eq" =>
    match encode_lin env d "<=" (d.fzn_id ++ "_le") with
    | .error e => ([], .error e)
    | .ok leLine =>
      match encode_lin env d ">=" (d.fzn_id ++ "_ge") with
      | .error e => ([leLine], .error e)
      | .ok geLine =>
        ([leLine, geLine],
         .ok { d with reif_implies_le := some (d.fzn_id ++ "_le"),
                      reif_implies_ge := some (d.fzn_id ++ "_ge") })
  | other => ([], .error (.justificationError ("Don't know how to encode constraint " ++ other)))

/-- `IntLinearJustifier::new` from `src/justifier/int_linear.rs`: take the
first antecedent token as the FlatZinc id, look the constraint up, accept only
`int_lin_le` / `int_lin_eq`, extract coefficients (inline array or array
identifier), variables (inline identifier array) and integer rhs, then encode.
Returns the lines written during encoding. -/
def IntLinearData.new (env : JEnv) (antecedents_str : String) :
    List String × Except PBErr IntLinearData :=
  let fzn_id := (strSplitCh ' ' (strTrim antecedents_str)).headD ""
  match get_fzn_constraint env fzn_id with
  | .error e => ([], .error e)
  | .ok fc =>
    if fc.id == "int_lin_le" || fc.id == "int_lin_eq" then
      match fc.args with
      | a0 :: a1 :: a2 :: _ =>
        let coeffsL : Except PBErr (List FznLit) :=
          match a0 with
          | FznArg.array l => .ok l
          | FznArg.literal (FznLit.identifier id) =>
            match env.fznArrays id with
            | some arr => .ok arr
            | none => .error (.justificationError ("Expected array, but got " ++ id))
          | _ =>
            .error (.justificationError
              "IntLinear: coeff should be array, or array identifier but got other")
        match coeffsL with
        | .error e => ([], .error e)
        | .ok cl =>
          match intsOf cl with
          | .error e => ([], .error e)
          | .ok coeffs =>
            match a1 with
            | FznArg.array vl =>
              match identsOf vl with
              | .error e => ([], .error e)
              | .ok vars =>
                match a2 with
                | FznArg.literal (FznLit.int rhs) =>
                  let d : IntLinearData :=
                    { constraint_name := fc.id, fzn_id := fzn_id, coeffs := coeffs,
                      vars := vars, rhs := rhs,
                      reif_implies_le := none, reif_implies_ge := none }
                  d.encode env
                | _ => ([], .error (.justificationError "IntLinear: rhs should be Int but got other"))
            | _ => ([], .error (.justificationError "IntLinear: vars should be array but got other"))
      | _ => ([], .error (.panicked "IntLinear antecedent constraint has fewer than 3 args"))
    else
      ([], .error (.justificationError ("Don't know how to encode constraint " ++ fc.id)))

/-- The `reason_vars` loop of `sub_lits_into_ineq`: the CP variable name of
each constraint literal, via `get_cp_lit_data`. -/
def reasonVarsOf (env : JEnv) : List PBLit → Except PBErr (List String)
  | [] => .ok []
  | l :: rest =>
    match env.litMap l.name with
    | none =>
      .error (.literalLookupError ("Couldn't find CP definition for literal " ++ l.name))
    | some d =>
      match reasonVarsOf env rest with
      | .error e => .error e
      | .ok vs => .ok (d.get_name :: vs)

/-- The (coeff, var) loop of `sub_lits_into_ineq`: reason variables contribute
their negation-definition id (when nonempty) weighted by `|coeff|`; other
variables contribute their lower-bound id when `coeff * mult > 0` and their
upper-bound id when `coeff * mult < 0`, ensuring bounds first. -/
def sub_pol_terms (env : JEnv) (neg_def_ids reason_vars : List String) (mult : Int) :
    List (Int × String) → PolBuilder → JState →
    JState × List String × Except PBErr PolBuilder
  | [], pol, st => (st, [], .ok pol)
  | cv :: rest, pol, st =>
    match reason_vars.findIdx? (fun x => x == cv.2) with
    | some i =>
      match neg_def_ids.get? i with
      | none => (st, [], .error (.panicked "neg_def_ids index out of range"))
      | some nid =>
        let pol1 := if nid != "" then pol.add_weighted nid (cv.1.natAbs % 2 ^ 32) else pol
        sub_pol_terms env neg_def_ids reason_vars mult rest pol1 st
    | none =>
      match ensure_bounds_defined env cv.2 st with
      | (st1, o1, .error e) => (st1, o1, .error e)
      | (st1, o1, .ok lbub) =>
        let pol1 :=
          if cv.1 * mult > 0 then pol.add_weighted lbub.1 (cv.1.natAbs % 2 ^ 32)
          else if cv.1 * mult < 0 then pol.add_weighted lbub.2 (cv.1.natAbs % 2 ^ 32)
          else pol
        match sub_pol_terms env neg_def_ids reason_vars mult rest pol1 st1 with
        | (st2, o2, r) => (st2, o1 ++ o2, r)

/-- `IntLinearJustifier::sub_lits_into_ineq`: seed the builder with the
encoded axiom id, process the (coeff, var) pairs, write the finished `pol`
line. -/
def sub_lits_into_ineq (env : JEnv) (d : IntLinearData) (neg_def_ids : List String)
    (c : PBConstraint) (enc_id : String) (mult : Int) (st : JState) :
    JState × List String × Except PBErr Unit :=
  let pol0 := PolBuilder.add PolBuilder.new enc_id
  match reasonVarsOf env c.get_constraint_lits with
  | .error e => (st, [], .error e)
  | .ok reason_vars =>
    match sub_pol_terms env neg_def_ids reason_vars mult (d.coeffs.zip d.vars) pol0 st with
    | (st1, o1, .error e) => (st1, o1, .error e)
    | (st1, o1, .ok pol) => (st1, o1 ++ [pol.done], .ok ())

/-- `IntLinearJustifier::justify`: strict literal definition, the `_le` chain
with `mult = 1`, for `int_lin_eq` the `_ge` chain with `mult = -1`, then the
final `rup` line with the original constraint. -/
def int_linear_justify (env : JEnv) (d : IntLinearData) (c : PBConstraint) (id_str : String)
    (st : JState) : JState × List String × Except PBErr Unit :=
  match ensure_all_lits_defined env true c.get_constraint_lits st with
  | (st1, o1, .error e) => (st1, o1, .error e)
  | (st1, o1, .ok pn) =>
    if d.constraint_name != "int_lin_le" && d.constraint_name != "int_lin_eq" then
      (st1, o1, .error (.justificationError (d.constraint_name ++ " not yet implemented")))
    else
      match d.reif_implies_le with
      | none => (st1, o1, .error (.panicked "reif_implies_le unwrap"))
      | some enc_id =>
        match sub_lits_into_ineq env d pn.2 c enc_id 1 st1 with
        | (st2, o2, .error e) => (st2, o1 ++ o2, .error e)
        | (st2, o2, .ok _) =>
          if d.constraint_name == "int_lin_eq" then
            match d.reif_implies_ge with
            | none => (st2, o1 ++ o2, .error (.panicked "reif_implies_ge unwrap"))
            | some ge_id =>
              match sub_lits_into_ineq env d pn.2 c ge_id (-1) st2 with
              | (st3, o3, .error e) => (st3, o1 ++ o2 ++ o3, .error e)
              | (st3, o3, .ok _) =>
                (st3, o1 ++ o2 ++ o3 ++ [id_str ++ " rup " ++ c.to_pretty_string ++ ";"], .ok ())
          else
            (st2, o1 ++ o2 ++ [id_str ++ " rup " ++ c.to_pretty_string ++ ";"], .ok ())

/-! ## The justifier dispatcher (`Justifier::justify`) -/

/-- `Justifier::parse_assertion_line`: split on `:`; the part before the first
colon is split once on `" a "` into id and constraint text (`splitn(2, " a ")`:
the remainder is rejoined); the constraint is parsed by the external OPB
parser (a parse failure is an `expect` panic); the second colon field is the
antecedent string, the optional third the family name. -/
def parse_assertion_line (env : JEnv) (line : String) :
    Except PBErr (String × String × PBConstraint × String × Option String) :=
  match strSplitCh ':' line with
  | [] => .error (.panicked "split returned an empty list")
  | before :: restParts =>
    match splitASpace before.toList with
    | none => .error (.panicked "assertion line without an a-separator")
    | some p =>
      let idStr := String.mk p.1
      let constraint_str := String.mk p.2
      match env.parsePB constraint_str with
      | none =>
        .error (.panicked ("Constraint with id " ++ idStr ++ " was not parsed correctly."))
      | some c =>
        match restParts with
        | [] => .error (.panicked "assertion line without antecedents")
        | ant :: more => .ok (idStr, constraint_str, c, ant, more.head?)

/-- `Justifier::failed_to_justify` + `write_bare_assertion`: the failure
comment and the bare `<id> a <pretty> :: <family>;` line. -/
def failed_to_justify (c : PBConstraint) (id_str name_str msg : String) : List String :=
  ["% PBarber Justifier failed to justify the following: (error msg: " ++ msg ++ ")",
   id_str ++ " a " ++ trim_sc c.to_pretty_string ++ " :: " ++ name_str ++ ";"]

/-- `install_justifier` from `src/justifier.rs` (the `cache` branch is dead:
`cache = false`, so nothing is ever inserted into the `justifiers` map). -/
def install_justifier (env : JEnv) (name antecedents_str : String) (st : JState) :
    JState × List String × Except PBErr JustifierObj :=
  if name == "IntVarDef" then (st, [], .ok JustifierObj.intVarDef)
  else if name == "IntLinear" then
    match IntLinearData.new env antecedents_str with
    | (o1, .error e) => (st, o1, .error e)
    | (o1, .ok d) => (st, o1, .ok (JustifierObj.intLinear d))
  else (st, [], .error (.justificationError (name ++ " not yet supported")))

/-- The dynamic dispatch `justifier.justify(self, constraint, id)`. -/
def run_justify (env : JEnv) (j : JustifierObj) (c : PBConstraint) (id_str : String)
    (st : JState) : JState × List String × Except PBErr Unit :=
  match j with
  | .intVarDef => int_var_def_justify env c id_str st
  | .intLinear d => int_linear_justify env d c id_str st

/-- Lookup in the (always empty) `justifiers` cache. -/
def lookupAssoc : List (String × JustifierObj) → String → Option JustifierObj
  | [], _ => none
  | kv :: rest, key => if kv.1 == key then some kv.2 else lookupAssoc rest key

/-- `Justifier::justify` from `src/justifier.rs`: parse the assertion line;
with no family name the line passes through; otherwise install (or fetch) the
family justifier and run it. A `JustificationError` from installation leads to
a re-parse, a non-strict `ensure_all_lits_defined` (whose own errors
propagate!) and the failure fallback; a `JustificationError` from the
justifier leads to a re-parse and the failure fallback. -/
def justify (env : JEnv) (line : String) (st : JState) :
    JState × List String × Except PBErr Unit :=
  match parse_assertion_line env line with
  | .error e => (st, [], .error e)
  | .ok (id_str, constraint_str, c, antecedents_str, opt_name) =>
    match opt_name with
    | none => (st, [line], .ok ())
    | some name0 =>
      let name := trim_sc (strTrim name0)
      let install_result : JState × List String × Except PBErr JustifierObj :=
        match lookupAssoc st.justifiers antecedents_str with
        | some j => (st, [], .ok j)
        | none => install_justifier env name antecedents_str st
      match install_result with
      | (st1, o1, .error (PBErr.justificationError msg)) =>
        match env.parsePB constraint_str with
        | none =>
          (st1, o1,
            .error (.panicked ("Constraint with id " ++ id_str ++ " was not parsed correctly.")))
        | some c2 =>
          match ensure_all_lits_defined env false c2.get_constraint_lits st1 with
          | (st2, o2, .error e) => (st2, o1 ++ o2, .error e)
          | (st2, o2, .ok _) =>
            (st2, o1 ++ o2 ++ failed_to_justify c2 id_str name msg, .ok ())
      | (st1, o1, .error e) => (st1, o1, .error e)
      | (st1, o1, .ok j) =>
        match run_justify env j c id_str st1 with
        | (st2, o2, .error (PBErr.justificationError msg)) =>
          match env.parsePB constraint_str with
          | none =>
            (st2, o1 ++ o2,
              .error (.panicked ("Constraint with id " ++ id_str ++ " was not parsed correctly.")))
          | some c2 =>
            (st2, o1 ++ o2 ++ failed_to_justify c2 id_str name msg, .ok ())
        | (st2, o2, r) => (st2, o1 ++ o2, r)

/-! ## Concrete scenario data (spec.md §8, S1–S6) -/

/-- The empty justifier state. -/
def jst0 : JState := ⟨[], [], []⟩

/-- S2/S3 environment: literal map `x1 ↦ condition (V < 5)`, domain of `V`
is `[0, 10]`. -/
def env3 : JEnv where
  litMap := fun s => if s == "x1" then some (.condition .intVar "V" .less "5") else none
  fznVariables := fun s => if s == "V" then some ⟨some (.int [(0, 10)])⟩ else none
  fznArrays := fun _ => none
  fznConstraints := []
  parsePB := fun _ => none

/-- The literal-definition line the code actually emits in scenario S2. -/
def s2ActualLine : String :=
  "@lfx1 red  x1 ==> 16 V_b4 8 V_b3 4 V_b2 2 V_b1 1 V_b0 <= 4 : x1 -> 0 ;"

/-- The literal-definition line the spec claims for scenario S2. -/
def s2ClaimedLine : String :=
  "@lfx1 red  x1 ==> 8 V_b3 4 V_b2 2 V_b1 1 V_b0 <= 4 : x1 -> 0 ;"

/-- Boolvar environment: literal map `b1 ↦ boolvar "W=0"`, domain of `W`
is `[0, 1]`. -/
def envB : JEnv where
  litMap := fun s => if s == "b1" then some (.boolvar .boolVar "W=0") else none
  fznVariables := fun s => if s == "W" then some ⟨some (.int [(0, 1)])⟩ else none
  fznArrays := fun _ => none
  fznConstraints := []
  parsePB := fun _ => none

/-- The boolvar literal `b1`. -/
def litB1 : PBLit := ⟨"b1", false⟩

/-- S4 state: `x1`, `~x1`, `x2`, `~x2` all already defined. -/
def st4 : JState := ⟨[⟨"x1", true⟩, ⟨"x1", false⟩, ⟨"x2", true⟩, ⟨"x2", false⟩], [], []⟩

/-- An environment with empty oracles. -/
def env4 : JEnv where
  litMap := fun _ => none
  fznVariables := fun _ => none
  fznArrays := fun _ => none
  fznConstraints := []
  parsePB := fun _ => none

/-- S4 constraint `1 ~x1 1 ~x2 >= 1`. -/
def c4 : PBConstraint := ⟨[((1 : Int), ⟨"x1", true⟩), ((1 : Int), ⟨"x2", true⟩)], 1⟩

/-- A one-literal constraint `1 x9 >= 1` for the unknown-family scenarios. -/
def c9c : PBConstraint := ⟨[((1 : Int), ⟨"x9", false⟩)], 1⟩

/-- Unknown-family environment: no literal-map entry for `x9`; the parser
oracle parses the constraint text of `line7`. -/
def env7 : JEnv where
  litMap := fun _ => none
  fznVariables := fun _ => none
  fznArrays := fun _ => none
  fznConstraints := []
  parsePB := fun s => if s == "1 x9 >= 1 " then some c9c else none

/-- An assertion line whose family `Weird` no justifier handles. -/
def line7 : String := "@9 a 1 x9 >= 1 : @f9 : Weird :"

/-- Like `env7` but `x9` maps to an equality condition, so the non-strict
definition pass inside the failure fallback raises a `JustificationError`. -/
def env8 : JEnv where
  litMap := fun s => if s == "x9" then some (.condition .intVar "W" .equal "3") else none
  fznVariables := fun _ => none
  fznArrays := fun _ => none
  fznConstraints := []
  parsePB := fun s => if s == "1 x9 >= 1 " then some c9c else none

/-- S1 lines (reverse file order pieces). -/
def s1Pol : PLine := .labelled "@3" (.pol ["@1", ";"])

/-- S1 used assertion `@1`. -/
def s1A1 : PLine := .labelled "@1" (.a ["@1", "a", "1", "x1", ">=", "1", ";"])

/-- S1 unused assertion `@2`. -/
def s1A2 : PLine := .labelled "@2" (.a ["@2", "a", "1", "x2", ">=", "1", ";"])

/-- S1 loop lines (after the conclusion header), in reverse file order. -/
def s1Loop : List PLine :=
  [s1Pol, s1A2, s1A1, .preamble "f 2", .preamble "pseudo-Boolean proof version 2.0"]

/-- The full S1 input, in reverse file order as the trimmer reads it. -/
def s1Rev : List PLine :=
  [.endProof, .conclusionUnsat "@3", .output "output NONE"] ++ s1Loop

/-- The expected S1 trimmed output in forward order: preamble, `@1`'s
assertion, the `pol` line, and the conclusion lines, with `@2` omitted. -/
def s1Forward : List PLine :=
  [.preamble "pseudo-Boolean proof version 2.0", .preamble "f 2", s1A1, s1Pol,
   .output "output NONE", .conclusionUnsat "@3", .endProof]

/-- The S1 trimmed output as the trimmer writes it (emission order, before
the plumbing re-reversal). -/
def s1TrimmedRev : List PLine :=
  [.endProof, .conclusionUnsat "@3", .output "output NONE", s1Pol, s1A1,
   .preamble "f 2", .preamble "pseudo-Boolean proof version 2.0"]

/-- S5/S6 environment: FlatZinc constraint 0 is `int_lin_eq` with
coefficients `[2, -1]`, variables `[A, B]`, rhs `3`; `A ∈ [0,7]`,
`B ∈ [0,3]`; `x1 ↦ condition (A < 5)`. -/
def env5 : JEnv where
  litMap := fun s => if s == "x1" then some (.condition .intVar "A" .less "5") else none
  fznVariables := fun s =>
    if s == "A" then some ⟨some (.int [(0, 7)])⟩
    else if s == "B" then some ⟨some (.int [(0, 3)])⟩ else none
  fznArrays := fun _ => none
  fznConstraints := [⟨"int_lin_eq", [.array [.int 2, .int (-1)],
      .array [.identifier "A", .identifier "B"], .literal (.int 3)]⟩]
  parsePB := fun _ => none

/-- The S6 `IntLinearJustifier` data after construction. -/
def d5 : IntLinearData :=
  { constraint_name := "int_lin_eq", fzn_id := "@f0", coeffs := [2, -1], vars := ["A", "B"],
    rhs := 3, reif_implies_le := some "@f0_le", reif_implies_ge := some "@f0_ge" }

/-- S6 state: `x1` and `~x1` already defined. -/
def st5 : JState := ⟨[⟨"x1", false⟩, ⟨"x1", true⟩], [], []⟩

/-- S6 assertion constraint `1 x1 >= 1`. -/
def c5 : PBConstraint := ⟨[((1 : Int), ⟨"x1", false⟩)], 1⟩

/-- The value of a 0/1 choice over the weighted bit variables: the sum of the
chosen coefficients. (The variable names emitted by `cp_var_bits_terms` are
pairwise distinct — distinct `_b<i>` suffixes — so a position-wise choice is
exactly an assignment to the bit variables.) -/
def selectSum : List (Int × String) → List Bool → Int
  | [], _ => 0
  | _, [] => 0
  | t :: ts, b :: bs => (if b then t.1 else 0) + selectSum ts bs

/-- A value is representable by a weighted bit vector if some 0/1 choice of
its variables sums to it. -/
def Representable (ts : List (Int × String)) (v : Int) : Prop :=
  ∃ bs, bs.length = ts.length ∧ selectSum ts bs = v

/-- Modelled from the spec: the bit-count formula stated in spec.md §4.4 —
`⌈log₂(max+1)⌉` when `min ≥ 0`, else `⌈log₂(max(|min|,|max|)+1)⌉ + 1` —
for comparison with `num_bits_for_range` (`⌈log₂ n⌉ = bitLen (n - 1)`). -/
def specNumBits (minv maxv : Int) : Nat :=
  if 0 ≤ minv then bitLen ((maxv + 1).toNat - 1)
  else bitLen (max maxv.natAbs minv.natAbs + 1 - 1) + 1

/-- S6 expected encoded-axiom lines for `env5` (`@f0_le`/`@f0_ge`). -/
def outE5 : List String :=
  ["@f0_le a 32 A_b4 16 A_b3 8 A_b2 4 A_b1 2 A_b0 -8 B_b3 -4 B_b2 -2 B_b1 -1 B_b0 <= 3 :: int_lin_eq;",
   "@f0_ge a 32 A_b4 16 A_b3 8 A_b2 4 A_b1 2 A_b0 -8 B_b3 -4 B_b2 -2 B_b1 -1 B_b0 >= 3 :: int_lin_eq;"]

/-- S6 expected post-state: `B`'s bounds were defined during substitution. -/
def st5' : JState := ⟨[⟨"x1", false⟩, ⟨"x1", true⟩], ["B"], []⟩

/-- S6 expected justification output: `B`'s bound axioms, the two `pol`
chains and the final `rup` step. -/
def outJ5 : List String :=
  ["@lbB a 8 B_b3 4 B_b2 2 B_b1 1 B_b0 >=0:: bits_lower_bound ;",
   "@ubB a 8 B_b3 4 B_b2 2 B_b1 1 B_b0 <=3:: bits_upper_bound ;",
   "pol @f0_le @lrx1 2 * + @ubB 1 * + ;",
   "pol @f0_ge @lrx1 2 * + @lbB 1 * + ;",
   "@7 rup 1 x1 >= 1;"]

/-! ## Basic lemmas about the embedding -/

theorem splitCh_ne_nil (sep : Char) : ∀ s, splitCh sep s ≠ []
  | [] => by simp [splitCh]
  | c :: cs => by
    simp only [splitCh]
    split
    · simp
    · split
      · simp
      · simp

theorem strSplitCh_ne_nil (sep : Char) (s : String) : strSplitCh sep s ≠ [] := by
  simp only [strSplitCh]
  intro hmap
  exact splitCh_ne_nil sep s.toList (List.map_eq_nil_iff.mp hmap)

/-- A literal already in `defined_lits` makes `ensure_lit_defined` a no-op
returning the definition id. -/
theorem ensure_lit_defined_of_mem (env : JEnv) (l : PBLit) (st : JState)
    (hmem : l ∈ st.defined_lits) :
    ensure_lit_defined env l st = (st, [], .ok (definition_id l)) := by
  simp only [ensure_lit_defined, List.contains, List.elem_eq_mem, hmem, decide_True, if_true]

/-- After any successful `ensure_bounds_defined` call: the returned ids are
`@lb<V>` / `@ub<V>`, the variable is recorded, `defined_lits` is untouched,
and zero or two lines were written. -/
theorem ensure_bounds_post (env : JEnv) (v : String) (st st' : JState)
    (o : List String) (lb ub : String)
    (h : ensure_bounds_defined env v st = (st', o, .ok (lb, ub))) :
    lb = "@lb" ++ v ∧ ub = "@ub" ++ v ∧ v ∈ st'.defined_bounds ∧
    st'.defined_lits = st.defined_lits ∧ (o = [] ∨ ∃ b1 b2, o = [b1, b2]) := by
  by_cases hc : v ∈ st.defined_bounds
  · simp only [ensure_bounds_defined, List.contains, List.elem_eq_mem, hc, decide_True, if_true,
      Prod.mk.injEq, Except.ok.injEq] at h
    obtain ⟨h1, h2, h3, h4⟩ := h
    exact ⟨h3.symm, h4.symm, h1 ▸ hc, h1 ▸ rfl, Or.inl h2.symm⟩
  · simp only [ensure_bounds_defined, List.contains, List.elem_eq_mem, hc, decide_False,
      Bool.false_eq_true, if_false] at h
    split at h
    · simp at h
    · split at h
      · simp at h
      · split at h
        · simp at h
        · simp only [Prod.mk.injEq, Except.ok.injEq] at h
          obtain ⟨h1, h2, h3, h4⟩ := h
          refine ⟨h3.symm, h4.symm, ?_, ?_, Or.inr ⟨_, _, h2.symm⟩⟩
          · rw [← h1]; exact List.mem_cons_self _ _
          · rw [← h1]

/-- A variable already in `defined_bounds` makes `ensure_bounds_defined` a
no-op returning the bound ids. -/
theorem ensure_bounds_of_mem (env : JEnv) (v : String) (st : JState)
    (hmem : v ∈ st.defined_bounds) :
    ensure_bounds_defined env v st = (st, [], .ok ("@lb" ++ v, "@ub" ++ v)) := by
  simp only [ensure_bounds_defined, List.contains, List.elem_eq_mem, hmem, decide_True, if_true]

/-- After any successful `ensure_lit_defined` call the literal is recorded,
and the output is empty, a single `red` line, or the two bound lines followed
by the `red` line. -/
theorem ensure_lit_defined_post (env : JEnv) (l : PBLit) (st st1 : JState)
    (out : List String) (r : String)
    (h : ensure_lit_defined env l st = (st1, out, .ok r)) :
    l ∈ st1.defined_lits ∧
    (out = [] ∨ (∃ ln, out = [ln]) ∨ (∃ b1 b2 ln, out = [b1, b2, ln])) := by
  by_cases hc : l ∈ st.defined_lits
  · simp only [ensure_lit_defined, List.contains, List.elem_eq_mem, hc, decide_True, if_true,
      Prod.mk.injEq, Except.ok.injEq] at h
    exact ⟨h.1 ▸ hc, Or.inl h.2.1.symm⟩
  · cases hm : env.litMap l.name with
    | none =>
      simp only [ensure_lit_defined, List.contains, List.elem_eq_mem, hc, decide_False,
        Bool.false_eq_true, if_false, hm, Prod.mk.injEq] at h
      exact Except.noConfusion h.2.2
    | some dat =>
      cases dat with
      | condition t nm op v =>
        simp only [ensure_lit_defined, List.contains, List.elem_eq_mem, hc, decide_False,
          Bool.false_eq_true, if_false, hm] at h
        split at h
        · simp at h
        · simp at h
        · split at h
          · simp at h
          · split at h
            · simp at h
            · simp only [Prod.mk.injEq, Except.ok.injEq] at h
              refine ⟨?_, Or.inr (Or.inl ⟨_, h.2.1.symm⟩)⟩
              rw [← h.1]; exact List.mem_cons_self _ _
      | boolvar t nm =>
        simp only [ensure_lit_defined, List.contains, List.elem_eq_mem, hc, decide_False,
          Bool.false_eq_true, if_false, hm] at h
        split at h
        · rename_i heq
          exact absurd heq (strSplitCh_ne_nil _ _)
        · simp at h
        · split at h
          · simp at h
          · split at h
            · simp at h
            · rename_i st2 o1 x heqB
              split at h
              · simp at h
              · split at h
                · simp at h
                · have hB := ensure_bounds_post env _ _ _ _ _ _ heqB
                  split at h
                  · simp only [Prod.mk.injEq, Except.ok.injEq] at h
                    constructor
                    · rw [← h.1]; exact List.mem_cons_self _ _
                    · rcases hB.2.2.2.2 with ho | ⟨b1, b2, ho⟩
                      · subst ho; exact Or.inr (Or.inl ⟨_, h.2.1.symm⟩)
                      · subst ho; exact Or.inr (Or.inr ⟨b1, b2, _, h.2.1.symm⟩)
                  · split at h
                    · simp only [Prod.mk.injEq, Except.ok.injEq] at h
                      constructor
                      · rw [← h.1]; exact List.mem_cons_self _ _
                      · rcases hB.2.2.2.2 with ho | ⟨b1, b2, ho⟩
                        · subst ho; exact Or.inr (Or.inl ⟨_, h.2.1.symm⟩)
                        · subst ho; exact Or.inr (Or.inr ⟨b1, b2, _, h.2.1.symm⟩)
                    · simp at h

/-! ## Claims -/

/-- C3 counterexample: for the S2 scenario (`x1 ↦ condition (V < 5)`,
`V ∈ [0,10]`), `ensure_lit_defined x1` emits a bit string with FIVE variables
`V_b0..V_b4` (weights 1,2,4,8,16), not the four the claim states: the actual
line differs from the claimed one by the extra leading `16 V_b4`. -/
theorem C3_counterexample :
    ensure_lit_defined env3 ⟨"x1", false⟩ jst0 =
      (⟨[⟨"x1", false⟩], [], []⟩, [s2ActualLine], .ok "@lfx1") ∧
    s2ActualLine ≠ s2ClaimedLine :=
  ⟨rfl, by decide⟩

/-- C3 amended: for a positive literal `x1` with literal-map entry
`(V < 5)` and domain `[0,10]`, `ensure_lit_defined x1` emits exactly
`@lfx1 red  x1 ==> 16 V_b4 8 V_b3 4 V_b2 2 V_b1 1 V_b0 <= 4 : x1 -> 0 ;` —
operator `<=` with right-hand side `value - 1 = 4`, and a bit string of five
variables `V_b0..V_b4` with weights 1,2,4,8,16 (the loop emits
`num_bits + 1 = 5` bits), and returns the id `@lfx1`. -/
theorem C3_condition_lit_amended :
    ensure_lit_defined env3 ⟨"x1", false⟩ jst0 =
      (⟨[⟨"x1", false⟩], [], []⟩,
       ["@lfx1 red  x1 ==> 16 V_b4 8 V_b3 4 V_b2 2 V_b1 1 V_b0 <= 4 : x1 -> 0 ;"],
       .ok "@lfx1") := rfl

/-- C6 counterexample: a Boolvar literal (`b1 ↦ boolvar "W=0"`, `W ∈ [0,1]`)
that is defined during the call makes `ensure_lit_defined` return the empty
string, not the definition id `@lfb1`. -/
theorem C6_counterexample :
    (ensure_lit_defined envB litB1 jst0).2.2 = .ok "" ∧
    definition_id litB1 = "@lfb1" ∧ ("" : String) ≠ "@lfb1" :=
  ⟨rfl, rfl, by decide⟩

/-- C6 amended: every successful `ensure_lit_defined l` call returns `l`'s
definition id (`@lf<name>` positive / `@lr<name>` negated) when `l` was
already defined or is defined through the Condition form; a Boolvar literal
being defined by the call returns the empty string instead. -/
theorem C6_return_id_amended (env : JEnv) (l : PBLit) (st st' : JState)
    (out : List String) (r : String)
    (h : ensure_lit_defined env l st = (st', out, .ok r)) :
    (l ∈ st.defined_lits ∧ r = definition_id l ∧ out = [] ∧ st' = st) ∨
    (l ∉ st.defined_lits ∧
      ((∃ t nm op v, env.litMap l.name = some (.condition t nm op v) ∧ r = definition_id l) ∨
       (∃ t nm, env.litMap l.name = some (.boolvar t nm) ∧ r = ""))) := by
  by_cases hc : l ∈ st.defined_lits
  · simp only [ensure_lit_defined, List.contains, List.elem_eq_mem, hc, decide_True, if_true,
      Prod.mk.injEq, Except.ok.injEq] at h
    exact Or.inl ⟨hc, h.2.2.symm, h.2.1.symm, h.1.symm⟩
  · refine Or.inr ⟨hc, ?_⟩
    cases hm : env.litMap l.name with
    | none =>
      simp only [ensure_lit_defined, List.contains, List.elem_eq_mem, hc, decide_False,
        Bool.false_eq_true, if_false, hm, Prod.mk.injEq] at h
      exact Except.noConfusion h.2.2
    | some dat =>
      cases dat with
      | condition t nm op v =>
        refine Or.inl ⟨t, nm, op, v, rfl, ?_⟩
        simp only [ensure_lit_defined, List.contains, List.elem_eq_mem, hc, decide_False,
          Bool.false_eq_true, if_false, hm] at h
        split at h
        · simp at h
        · simp at h
        · split at h
          · simp at h
          · split at h
            · simp at h
            · simp only [Prod.mk.injEq, Except.ok.injEq] at h
              exact h.2.2.symm
      | boolvar t nm =>
        refine Or.inr ⟨t, nm, rfl, ?_⟩
        simp only [ensure_lit_defined, List.contains, List.elem_eq_mem, hc, decide_False,
          Bool.false_eq_true, if_false, hm] at h
        split at h
        · rename_i heq
          exact absurd heq (strSplitCh_ne_nil _ _)
        · simp at h
        · split at h
          · simp at h
          · split at h
            · simp at h
            · split at h
              · simp at h
              · split at h
                · simp at h
                · split at h
                  · simp only [Prod.mk.injEq, Except.ok.injEq] at h
                    exact h.2.2.symm
                  · split at h
                    · simp only [Prod.mk.injEq, Except.ok.injEq] at h
                      exact h.2.2.symm
                    · simp at h

/-- C6 witness: the amended theorem applied to the S2 condition scenario. -/
theorem C6_return_id_amended_witness :
    ((⟨"x1", false⟩ : PBLit) ∈ jst0.defined_lits ∧ "@lfx1" = definition_id ⟨"x1", false⟩ ∧
      [s2ActualLine] = ([] : List String) ∧ (⟨[⟨"x1", false⟩], [], []⟩ : JState) = jst0) ∨
    ((⟨"x1", false⟩ : PBLit) ∉ jst0.defined_lits ∧
      ((∃ t nm op v, env3.litMap "x1" = some (.condition t nm op v) ∧
          "@lfx1" = definition_id ⟨"x1", false⟩) ∨
       (∃ t nm, env3.litMap "x1" = some (.boolvar t nm) ∧ "@lfx1" = ""))) :=
  C6_return_id_amended env3 ⟨"x1", false⟩ jst0 ⟨[⟨"x1", false⟩], [], []⟩
    [s2ActualLine] "@lfx1" rfl

/-- C9 counterexample: the first (defining) call for a Boolvar literal writes
lines and returns `""`; the second call writes nothing but returns `@lfb1`,
so the two calls do not return the same id. -/
theorem C9_counterexample :
    ∃ st1 out1, ensure_lit_defined envB litB1 jst0 = (st1, out1, .ok "") ∧
      ensure_lit_defined envB litB1 st1 = (st1, [], .ok "@lfb1") ∧
      ("" : String) ≠ "@lfb1" :=
  ⟨⟨[litB1], ["W"], []⟩,
   ["@lbW a 4 W_b2 2 W_b1 1 W_b0 >=0:: bits_lower_bound ;",
    "@ubW a 4 W_b2 2 W_b1 1 W_b0 <=1:: bits_upper_bound ;",
    "@lfb1 red  b1 ==> 4 W_b2 2 W_b1 1 W_b0 <= 0 : b1 -> 0 ;"],
   rfl, rfl, by decide⟩

/-- C9 amended: definition emission is idempotent. A successful
`ensure_lit_defined l` writes at most one `red` definition line (possibly
preceded by the two bound lines of a Boolvar's variable); afterwards a second
call writes nothing, leaves the state unchanged, and returns the definition
id (which, for a Boolvar literal, differs from the first call's empty-string
result). A successful `ensure_bounds_defined v` writes at most two lines and a
second call writes nothing and returns the same ids. -/
theorem C9_idempotent_amended (env : JEnv) (l : PBLit) (v : String)
    (st st1 stB stB1 : JState) (out outB : List String) (r lb ub : String)
    (h1 : ensure_lit_defined env l st = (st1, out, .ok r))
    (hB : ensure_bounds_defined env v stB = (stB1, outB, .ok (lb, ub))) :
    ensure_lit_defined env l st1 = (st1, [], .ok (definition_id l)) ∧
    (out = [] ∨ (∃ ln, out = [ln]) ∨ (∃ b1 b2 ln, out = [b1, b2, ln])) ∧
    ensure_bounds_defined env v stB1 = (stB1, [], .ok (lb, ub)) ∧
    (outB = [] ∨ ∃ b1 b2, outB = [b1, b2]) := by
  have hpost := ensure_lit_defined_post env l st st1 out r h1
  have hBpost := ensure_bounds_post env v stB stB1 outB lb ub hB
  refine ⟨ensure_lit_defined_of_mem env l st1 hpost.1, hpost.2, ?_, hBpost.2.2.2.2⟩
  rw [hBpost.1, hBpost.2.1]
  exact ensure_bounds_of_mem env v stB1 hBpost.2.2.1

/-- C9 witness: the amended theorem applied to the Boolvar scenario (both the
literal call and a bound call on `W`). -/
theorem C9_idempotent_amended_witness :
    ensure_lit_defined envB litB1 ⟨[litB1], ["W"], []⟩ =
      (⟨[litB1], ["W"], []⟩, [], .ok (definition_id litB1)) ∧
    ((["@lbW a 4 W_b2 2 W_b1 1 W_b0 >=0:: bits_lower_bound ;",
       "@ubW a 4 W_b2 2 W_b1 1 W_b0 <=1:: bits_upper_bound ;",
       "@lfb1 red  b1 ==> 4 W_b2 2 W_b1 1 W_b0 <= 0 : b1 -> 0 ;"] : List String) = [] ∨
     (∃ ln, (["@lbW a 4 W_b2 2 W_b1 1 W_b0 >=0:: bits_lower_bound ;",
       "@ubW a 4 W_b2 2 W_b1 1 W_b0 <=1:: bits_upper_bound ;",
       "@lfb1 red  b1 ==> 4 W_b2 2 W_b1 1 W_b0 <= 0 : b1 -> 0 ;"] : List String) = [ln]) ∨
     (∃ b1 b2 ln, (["@lbW a 4 W_b2 2 W_b1 1 W_b0 >=0:: bits_lower_bound ;",
       "@ubW a 4 W_b2 2 W_b1 1 W_b0 <=1:: bits_upper_bound ;",
       "@lfb1 red  b1 ==> 4 W_b2 2 W_b1 1 W_b0 <= 0 : b1 -> 0 ;"] : List String) =
        [b1, b2, ln])) ∧
    ensure_bounds_defined envB "W" ⟨[], ["W"], []⟩ = (⟨[], ["W"], []⟩, [], .ok ("@lbW", "@ubW")) ∧
    ((["@lbW a 4 W_b2 2 W_b1 1 W_b0 >=0:: bits_lower_bound ;",
       "@ubW a 4 W_b2 2 W_b1 1 W_b0 <=1:: bits_upper_bound ;"] : List String) = [] ∨
     ∃ b1 b2, (["@lbW a 4 W_b2 2 W_b1 1 W_b0 >=0:: bits_lower_bound ;",
       "@ubW a 4 W_b2 2 W_b1 1 W_b0 <=1:: bits_upper_bound ;"] : List String) = [b1, b2]) :=
  C9_idempotent_amended envB litB1 "W" jst0 ⟨[litB1], ["W"], []⟩ jst0 ⟨[], ["W"], []⟩
    ["@lbW a 4 W_b2 2 W_b1 1 W_b0 >=0:: bits_lower_bound ;",
     "@ubW a 4 W_b2 2 W_b1 1 W_b0 <=1:: bits_upper_bound ;",
     "@lfb1 red  b1 ==> 4 W_b2 2 W_b1 1 W_b0 <= 0 : b1 -> 0 ;"]
    ["@lbW a 4 W_b2 2 W_b1 1 W_b0 >=0:: bits_lower_bound ;",
     "@ubW a 4 W_b2 2 W_b1 1 W_b0 <=1:: bits_upper_bound ;"]
    "" "@lbW" "@ubW" rfl rfl

/-- C4 counterexample: for the S4 scenario (`@7 a 1 ~x1 1 ~x2 >= 1 : @f0 :
IntVarDef :` with all four literal polarities predefined), the justifier
emits `pol @lfx1 @lfx2 + ;` — the definition ids of the literals' negations
(the forward `@lf` ids, since the literals are negated) in reverse-polish
order — not the claimed infix line `pol @lrx1  + @lrx2 ;`. -/
theorem C4_counterexample :
    int_var_def_justify env4 c4 "@7" st4 =
      (st4, ["pol @lfx1 @lfx2 + ;", "@7 ia 1 ~x1 1 ~x2 >= 1 : -1;"], .ok ()) ∧
    ("pol @lfx1 @lfx2 + ;" : String) ≠ "pol @lrx1  + @lrx2 ;" :=
  ⟨rfl, by decide⟩

/-- C4 amended: for an `IntVarDef` assertion with exactly two literals whose
negation-definition ids are `d1` and `d2`, the justifier emits the line
`pol <d1> <d2> + ;` (reverse-polish: the `+` follows the two operands, and
these are the ids of the literals' NEGATIONS — `@lf` ids when the assertion's
literals are negated) followed by the implication step
`<id> ia <constraint> : -1;`. -/
theorem C4_int_var_def_amended (env : JEnv) (c : PBConstraint) (id_str : String)
    (st st1 : JState) (o1 ps : List String) (d1 d2 : String)
    (h : ensure_all_lits_defined env true c.get_constraint_lits st =
      (st1, o1, .ok (ps, [d1, d2]))) :
    int_var_def_justify env c id_str st =
      (st1, o1 ++ ["pol " ++ d1 ++ " " ++ d2 ++ " + ;",
                   id_str ++ " ia " ++ trim_sc c.to_pretty_string ++ " : -1;"], .ok ()) := by
  simp only [int_var_def_justify, h]
  have hs : (" + " ++ ";" : String) = " + ;" := rfl
  norm_num [PolBuilder.add_all, PolBuilder.add, PolBuilder.new, PolBuilder.done,
    List.foldl, String.append_assoc, hs]

/-- C4 witness: the amended theorem applied to the S4 scenario. -/
theorem C4_int_var_def_amended_witness :
    int_var_def_justify env4 c4 "@7" st4 =
      (st4, [] ++ ["pol " ++ "@lfx1" ++ " " ++ "@lfx2" ++ " + ;",
                   "@7" ++ " ia " ++ trim_sc c4.to_pretty_string ++ " : -1;"], .ok ()) :=
  C4_int_var_def_amended env4 c4 "@7" st4 st4 [] ["@lrx1", "@lrx2"] "@lfx1" "@lfx2" rfl

/-- A successful `parse_assertion_line` means the external parser parsed the
extracted constraint text to the returned constraint. -/
theorem parse_assertion_parsePB (env : JEnv) (line : String) (id_str cstr : String)
    (c : PBConstraint) (ant : String) (opt_name : Option String)
    (h : parse_assertion_line env line = .ok (id_str, cstr, c, ant, opt_name)) :
    env.parsePB cstr = some c := by
  unfold parse_assertion_line at h
  split at h <;> try simp at h
  split at h
  · simp at h
  · split at h
    · simp at h
    · rename_i p hpb
      split at h
      · simp at h
      · simp only [Except.ok.injEq, Prod.mk.injEq] at h
        obtain ⟨h1, h2, h3, h4⟩ := h
        rw [← h2, ← h3]
        exact hpb

/-- C7 counterexample: for an assertion of the unknown family `Weird` the
justifier emits the failure comment
`% PBarber Justifier failed to justify the following: (error msg: Weird not
yet supported)` — the claimed comment
`% PBarber Justifier didn't know how to justify the following:` appears
nowhere in the code. -/
theorem C7_counterexample :
    justify env7 line7 jst0 =
      (jst0,
       ["% PBarber Justifier failed to justify the following: (error msg: Weird not yet supported)",
        "@9 a 1 x9 >= 1 :: Weird;"], .ok ()) ∧
    ("% PBarber Justifier failed to justify the following: (error msg: Weird not yet supported)"
        : String) ≠
      "% PBarber Justifier didn't know how to justify the following:" :=
  ⟨rfl, by decide⟩

/-- C7 amended: for every assertion whose family is neither `IntVarDef` nor
`IntLinear` (and whose fallback literal pass succeeds), the justifier emits
the comment `% PBarber Justifier failed to justify the following: (error msg:
<family> not yet supported)` followed by the original assertion with the
family appended via `::`. -/
theorem C7_unknown_family_amended (env : JEnv) (line : String) (st : JState)
    (id_str cstr : String) (c : PBConstraint) (ant name0 : String)
    (st2 : JState) (o2 : List String) (pn : List String × List String)
    (hp : parse_assertion_line env line = .ok (id_str, cstr, c, ant, some name0))
    (hlk : lookupAssoc st.justifiers ant = none)
    (h1 : trim_sc (strTrim name0) ≠ "IntVarDef")
    (h2 : trim_sc (strTrim name0) ≠ "IntLinear")
    (hens : ensure_all_lits_defined env false c.get_constraint_lits st = (st2, o2, .ok pn)) :
    justify env line st =
      (st2, o2 ++ ["% PBarber Justifier failed to justify the following: (error msg: " ++
          trim_sc (strTrim name0) ++ " not yet supported)",
        id_str ++ " a " ++ trim_sc c.to_pretty_string ++ " :: " ++
          trim_sc (strTrim name0) ++ ";"],
       .ok ()) := by
  have hpb := parse_assertion_parsePB env line id_str cstr c ant (some name0) hp
  have hs : (" not yet supported" ++ ")" : String) = " not yet supported)" := rfl
  simp only [justify, hp, hlk, install_justifier, beq_iff_eq, h1, h2, if_false, hpb, hens,
    failed_to_justify, List.nil_append, String.append_assoc, hs]

/-- C7 witness: the amended theorem applied to the `Weird` scenario. -/
theorem C7_unknown_family_amended_witness :
    justify env7 line7 jst0 =
      (jst0, [] ++ ["% PBarber Justifier failed to justify the following: (error msg: " ++
          trim_sc (strTrim " Weird ") ++ " not yet supported)",
        "@9" ++ " a " ++ trim_sc c9c.to_pretty_string ++ " :: " ++
          trim_sc (strTrim " Weird ") ++ ";"],
       .ok ()) :=
  C7_unknown_family_amended env7 line7 jst0 "@9" "1 x9 >= 1 " c9c " @f9 " " Weird "
    jst0 [] ([], []) rfl rfl (by decide) (by decide) rfl

/-- C8 counterexample: with `x9 ↦ condition (W == 3)`, the install failure
for family `Weird` leads into the fallback, whose own non-strict literal pass
raises `JustificationError "Can't handle equality literals yet."`; that error
is NOT caught — `justify` (and hence `style`) returns it. -/
theorem C8_counterexample :
    justify env8 line7 jst0 =
      (jst0, [], .error (.justificationError "Can't handle equality literals yet.")) := rfl

/-- C8 amended: a `JustificationError` raised while installing a family
justifier (provided the fallback's own non-strict literal pass succeeds) or
while justifying an assertion is caught and demoted to the failure comment
plus the bare assertion, so `justify` returns without error for that line;
an error raised by the fallback's literal pass itself escapes. -/
theorem C8_error_demoted_amended (env : JEnv) (line : String) (st st1 st2 : JState)
    (id_str cstr : String) (c : PBConstraint) (ant name0 msg : String)
    (o1 o2 : List String) (pn : List String × List String) (j : JustifierObj)
    (hp : parse_assertion_line env line = .ok (id_str, cstr, c, ant, some name0))
    (hlk : lookupAssoc st.justifiers ant = none)
    (hcase :
      (install_justifier env (trim_sc (strTrim name0)) ant st =
          (st1, o1, .error (.justificationError msg)) ∧
        ensure_all_lits_defined env false c.get_constraint_lits st1 = (st2, o2, .ok pn)) ∨
      (install_justifier env (trim_sc (strTrim name0)) ant st = (st1, o1, .ok j) ∧
        run_justify env j c id_str st1 = (st2, o2, .error (.justificationError msg)))) :
    justify env line st =
      (st2, o1 ++ o2 ++ failed_to_justify c id_str (trim_sc (strTrim name0)) msg, .ok ()) := by
  have hpb := parse_assertion_parsePB env line id_str cstr c ant (some name0) hp
  rcases hcase with ⟨hinst, hens⟩ | ⟨hinst, hrun⟩
  · simp only [justify, hp, hlk, hinst, hpb, hens]
  · simp only [justify, hp, hlk, hinst, hrun, hpb]

/-- C8 witness: the amended theorem applied to the `Weird` scenario (install
failure arm, with a successful fallback literal pass). -/
theorem C8_error_demoted_amended_witness :
    justify env7 line7 jst0 =
      (jst0, [] ++ [] ++
        failed_to_justify c9c "@9" (trim_sc (strTrim " Weird ")) "Weird not yet supported",
       .ok ()) :=
  C8_error_demoted_amended env7 line7 jst0 jst0 jst0 "@9" "1 x9 >= 1 " c9c " @f9 " " Weird "
    "Weird not yet supported" [] [] ([], []) JustifierObj.intVarDef rfl rfl
    (Or.inl ⟨rfl, rfl⟩)

/-- Every `del` line a successful pol-operand pass writes has the two tokens
`<operand> ;`. -/
theorem processPolTerms_ok_dels (cfg : TrimmerConfig) :
    ∀ (ts : List String) (st : TState) (st' : TState) (dels : List PLine),
    processPolTerms cfg st ts = .ok (st', dels) →
    ∀ p ∈ dels, ∃ tok, p = PLine.del [tok, ";"]
  | [], st, st', dels, h => by
    simp only [processPolTerms, Except.ok.injEq, Prod.mk.injEq] at h
    rw [← h.2]
    simp
  | t :: ts, st, st', dels, h => by
    simp only [processPolTerms] at h
    split at h
    · exact processPolTerms_ok_dels cfg ts st st' dels h
    · split at h
      · simp at h
      · split at h
        · exact processPolTerms_ok_dels cfg ts st st' dels h
        · split at h
          · rename_i st2 out2 hrec
            simp only [Except.ok.injEq, Prod.mk.injEq] at h
            intro p hp
            rw [← h.2] at hp
            rcases List.mem_append.mp hp with hp1 | hp2
            · split at hp1
              · simp only [List.mem_singleton] at hp1
                exact ⟨t, hp1⟩
              · simp at hp1
            · exact processPolTerms_ok_dels cfg ts _ st2 out2 hrec p hp2
          · simp at h

/-- With `lit_deletion` off, the trimmer loop never emits a single-token
`del` line (the shape of the `del id @lf<lit>` / `del id @lr<lit>` lines). -/
theorem trimLoop_no_singleton_del (cfg : TrimmerConfig) (hld : cfg.lit_deletion = false) :
    ∀ (ls : List PLine) (st st' : TState) (out : List PLine),
    trimLoop cfg st ls = .ok (st', out) → ∀ s, PLine.del [s] ∉ out
  | [], st, st', out, h => by
    simp only [trimLoop, Except.ok.injEq, Prod.mk.injEq] at h
    rw [← h.2]
    simp
  | line :: rest, st, st', out, h => by
    intro s hs
    simp only [trimLoop] at h
    split at h
    · split at h
      · split at h
        · split at h
          · simp at h
          · rename_i st1 dels hpt
            split at h
            · simp at h
            · rename_i st2 out2 hrec
              simp only [Except.ok.injEq, Prod.mk.injEq] at h
              rw [← h.2] at hs
              rcases List.mem_append.mp hs with h1 | h2
              · obtain ⟨tok, htok⟩ := processPolTerms_ok_dels cfg _ _ _ _ hpt _ h1
                simp at htok
              · rcases List.mem_cons.mp h2 with h3 | h4
                · exact PLine.noConfusion h3
                · exact trimLoop_no_singleton_del cfg hld rest _ st2 out2 hrec s h4
        · split at h
          · simp at h
          · rename_i st2 out2 hrec
            simp only [hld, Bool.false_eq_true, if_false] at h
            simp only [Except.ok.injEq, Prod.mk.injEq] at h
            rw [← h.2] at hs
            simp only [List.nil_append] at hs
            rcases List.mem_cons.mp hs with h3 | h4
            · exact PLine.noConfusion h3
            · exact trimLoop_no_singleton_del cfg hld rest _ st2 out2 hrec s h4
        · simp at h
      · exact trimLoop_no_singleton_del cfg hld rest _ st' out h s hs
    · split at h
      · simp at h
      · rename_i st2 out2 hrec
        simp only [Except.ok.injEq, Prod.mk.injEq] at h
        rw [← h.2] at hs
        rcases List.mem_cons.mp hs with h3 | h4
        · exact PLine.noConfusion h3
        · exact trimLoop_no_singleton_del cfg hld rest _ st2 out2 hrec s h4
    · split at h
      · exact trimLoop_no_singleton_del cfg hld rest _ st' out h s hs
      · split at h
        · simp at h
        · exact trimLoop_no_singleton_del cfg hld rest _ st' out h s hs
    · exact trimLoop_no_singleton_del cfg hld rest _ st' out h s hs

/-- C10: `run_trimmer` forces `lit_deletion` off (replacing the configuration
with one where it is false), and consequently a trim run never emits the
single-token `del id @lf<lit>` / `del id @lr<lit>` literal-definition
deletion lines, whatever the `--lit-deletion` flag said. -/
theorem C10_no_lit_deletion (cfg : TrimmerConfig) (lines out : List PLine)
    (h : run_trimmer cfg lines = .ok out) :
    effectiveTrimmerConfig cfg = { cfg with lit_deletion := false } ∧
    ∀ s, PLine.del [s] ∉ out := by
  have heff : effectiveTrimmerConfig cfg = { cfg with lit_deletion := false } := by
    unfold effectiveTrimmerConfig
    split
    · rfl
    · rename_i hb
      simp only [Bool.not_eq_true] at hb
      cases cfg
      simp_all
  refine ⟨heff, ?_⟩
  unfold run_trimmer at h
  rw [heff] at h
  unfold trim at h
  split at h
  · split at h
    · split at h
      · split at h
        · simp at h
        · rename_i stf outf hloop
          simp only [Except.ok.injEq] at h
          intro s hs
          rw [← h] at hs
          rcases List.mem_cons.mp hs with h1 | hs
          · exact PLine.noConfusion h1
          rcases List.mem_cons.mp hs with h1 | hs
          · exact PLine.noConfusion h1
          rcases List.mem_cons.mp hs with h1 | hs
          · exact PLine.noConfusion h1
          exact trimLoop_no_singleton_del _ rfl _ _ _ _ hloop s hs
      · simp at h
    · simp at h
  · simp at h

/-- C10 witness: the trim-with-`--lit-deletion` run on the S1 input emits no
literal-definition deletion line. -/
theorem C10_no_lit_deletion_witness :
    effectiveTrimmerConfig ⟨false, false, true⟩ =
      { (⟨false, false, true⟩ : TrimmerConfig) with lit_deletion := false } ∧
    PLine.del ["@lfx1"] ∉ s1TrimmedRev :=
  ⟨(C10_no_lit_deletion ⟨false, false, true⟩ s1Rev s1TrimmedRev rfl).1,
   (C10_no_lit_deletion ⟨false, false, true⟩ s1Rev s1TrimmedRev rfl).2 "@lfx1"⟩

/-! ## Bit-length arithmetic and bit-vector coverage (C2) -/

theorem bitLenAux_congr : ∀ (f g n : Nat), n ≤ f → n ≤ g → bitLenAux f n = bitLenAux g n
  | 0, g, n, hf, hg => by
    interval_cases n
    cases g <;> simp [bitLenAux]
  | f + 1, 0, n, hf, hg => by
    interval_cases n
    simp [bitLenAux]
  | f + 1, g + 1, n, hf, hg => by
    simp only [bitLenAux]
    by_cases hn : n = 0
    · simp [hn]
    · simp only [hn, if_false]
      have hd : n / 2 < n := Nat.div_lt_self (Nat.pos_of_ne_zero hn) (by norm_num)
      have := bitLenAux_congr f g (n / 2) (by omega) (by omega)
      rw [this]

theorem bitLen_rec (n : Nat) : bitLen n = if n = 0 then 0 else bitLen (n / 2) + 1 := by
  cases n with
  | zero => simp [bitLen, bitLenAux]
  | succ m =>
    simp only [bitLen, Nat.succ_ne_zero, if_false, bitLenAux]
    have hd : (m + 1) / 2 < m + 1 := Nat.div_lt_self (by omega) (by norm_num)
    rw [bitLenAux_congr m ((m + 1) / 2) ((m + 1) / 2) (by omega) le_rfl]

theorem bitLen_zero : bitLen 0 = 0 := rfl

/-- A number is below `2 ^` its bit length. -/
theorem lt_two_pow_bitLen : ∀ n : Nat, n < 2 ^ bitLen n := by
  intro n
  induction n using Nat.strong_induction_on with
  | _ n ih =>
    rw [bitLen_rec]
    by_cases hn : n = 0
    · simp [hn]
    · simp only [hn, if_false, pow_succ]
      have hd : n / 2 < n := Nat.div_lt_self (Nat.pos_of_ne_zero hn) (by norm_num)
      have h2 := ih (n / 2) hd
      omega

/-- `2 ^ bitLen n` is at most `2 n` for positive `n`: together with
`lt_two_pow_bitLen` this pins `bitLen n` to `⌊log₂ n⌋ + 1`. -/
theorem two_pow_bitLen_le : ∀ n : Nat, 1 ≤ n → 2 ^ bitLen n ≤ 2 * n := by
  intro n
  induction n using Nat.strong_induction_on with
  | _ n ih =>
    intro hn
    rw [bitLen_rec]
    simp only [show n ≠ 0 by omega, if_false, pow_succ]
    by_cases h2 : n / 2 = 0
    · rw [h2, bitLen_zero]
      omega
    · have hd : n / 2 < n := Nat.div_lt_self (by omega) (by norm_num)
      have := ih (n / 2) hd (by omega)
      omega

theorem bitLen_pos (n : Nat) (h : 1 ≤ n) : 1 ≤ bitLen n := by
  rw [bitLen_rec]
  simp [show n ≠ 0 by omega]

theorem termChunksDesc_length (cp : String) (m : Int) :
    ∀ n, (termChunksDesc cp m n).length = n + 1
  | 0 => rfl
  | n + 1 => by simp [termChunksDesc, termChunksDesc_length cp m n]

/-- Binary subset-sum coverage: the descending chunk list for bits
`n … 0` (multiplier 1) can take every value in `[0, 2^(n+1))`. -/
theorem selectSum_cover (cp : String) :
    ∀ (n : Nat) (v : Nat), v < 2 ^ (n + 1) →
    ∃ bs, bs.length = n + 1 ∧ selectSum (termChunksDesc cp 1 n) bs = (v : Int)
  | 0, v, hv => by
    interval_cases v
    · exact ⟨[false], rfl, by simp [termChunksDesc, selectSum]⟩
    · exact ⟨[true], rfl, by norm_num [termChunksDesc, selectSum]⟩
  | n + 1, v, hv => by
    have h2 : 2 ^ (n + 1 + 1) = 2 * 2 ^ (n + 1) := by ring
    by_cases hge : 2 ^ (n + 1) ≤ v
    · obtain ⟨bs, hlen, hsum⟩ := selectSum_cover cp n (v - 2 ^ (n + 1)) (by omega)
      refine ⟨true :: bs, by simp [hlen], ?_⟩
      simp only [termChunksDesc, selectSum, if_true, mul_one, hsum]
      push_cast [hge]
      ring
    · obtain ⟨bs, hlen, hsum⟩ := selectSum_cover cp n v (by omega)
      refine ⟨false :: bs, by simp [hlen], ?_⟩
      simp only [termChunksDesc, selectSum, Bool.false_eq_true, if_false, hsum]
      ring

/-- C2 counterexample: for `(min, max) = (0, 1)` the code computes
`num_bits_for_range 0 1 = 2`, while the claimed formula `⌈log₂(max+1)⌉`
gives 1 — and 1 bit already represents both values of `[0, 1]`, so the code's
count is not the smallest either. -/
theorem C2_counterexample :
    num_bits_for_range 0 1 = 2 ∧ specNumBits 0 1 = 1 ∧ (2 : Nat) ≠ 1 ∧
    Representable (termChunksDesc "V" 1 0) 0 ∧ Representable (termChunksDesc "V" 1 0) 1 :=
  ⟨rfl, rfl, by decide, ⟨[false], rfl, by decide⟩, ⟨[true], rfl, by decide⟩⟩

/-- C2 amended: for `min ≤ max`, `num_bits_for_range(min, max)` equals
`⌊log₂(max+1)⌋ + 1` when `min ≥ 0` (characterised by
`max+1 < 2^k ≤ 2(max+1)`) and `⌊log₂(max(|min|,|max|)+1)⌋ + 1` when
`min < 0` (the spec's extra `+1` is absent), and the bit vector emitted by
`cp_var_bits_str` — `num_bits + 1` magnitude bits when `min ≥ 0`, or a
two's-complement sign bit of weight `−2^num_bits` plus `num_bits` magnitude
bits when `min < 0` — can represent every integer in `[min, max]`.
(It is not always the smallest such vector; see the counterexample.) -/
theorem C2_num_bits_amended (minv maxv v : Int) (cpvar : String)
    (hle : minv ≤ maxv) (h1 : minv ≤ v) (h2 : v ≤ maxv) :
    (0 ≤ minv → (maxv + 1).toNat < 2 ^ num_bits_for_range minv maxv ∧
       2 ^ num_bits_for_range minv maxv ≤ 2 * (maxv + 1).toNat) ∧
    (minv < 0 → max maxv.natAbs minv.natAbs + 1 < 2 ^ num_bits_for_range minv maxv ∧
       2 ^ num_bits_for_range minv maxv ≤ 2 * (max maxv.natAbs minv.natAbs + 1)) ∧
    Representable (cp_var_bits_terms minv maxv cpvar 1) v := by
  refine ⟨?_, ?_, ?_⟩
  · intro hm
    have hnb : num_bits_for_range minv maxv = bitLen (maxv + 1).toNat := by
      simp [num_bits_for_range, hm]
    rw [hnb]
    exact ⟨lt_two_pow_bitLen _, two_pow_bitLen_le _ (by omega)⟩
  · intro hm
    have hnb : num_bits_for_range minv maxv = bitLen (max maxv.natAbs minv.natAbs + 1) := by
      simp [num_bits_for_range, show ¬ (0 ≤ minv) by omega]
    rw [hnb]
    exact ⟨lt_two_pow_bitLen _, two_pow_bitLen_le _ (by omega)⟩
  · by_cases hm : minv < 0
    · set M := max maxv.natAbs minv.natAbs with hM
      have hnb : num_bits_for_range minv maxv = bitLen (M + 1) := by
        simp [num_bits_for_range, show ¬ (0 ≤ minv) by omega, hM]
      have hMpos : 1 ≤ M := by
        have : 1 ≤ minv.natAbs := by omega
        omega
      have hnb1 : 1 ≤ bitLen (M + 1) := bitLen_pos _ (by omega)
      have hMlt : M + 1 < 2 ^ bitLen (M + 1) := lt_two_pow_bitLen _
      have hterms : cp_var_bits_terms minv maxv cpvar 1 =
          ((2 ^ num_bits_for_range minv maxv : Int) * (-1),
            cpvar ++ "_b" ++ toString (num_bits_for_range minv maxv + 1)) ::
          termChunksDesc cpvar 1 (num_bits_for_range minv maxv - 1) := by
        simp [cp_var_bits_terms, hm]
      rw [hterms]
      rw [hnb]
      have hsucc : bitLen (M + 1) - 1 + 1 = bitLen (M + 1) := by omega
      by_cases hv : 0 ≤ v
      · obtain ⟨bs, hlen, hsum⟩ := selectSum_cover cpvar (bitLen (M + 1) - 1) v.toNat (by
          rw [hsucc]
          have : v.toNat ≤ M := by omega
          omega)
        refine ⟨false :: bs, ?_, ?_⟩
        · simp [hlen, termChunksDesc_length]
        · simp only [selectSum, Bool.false_eq_true, if_false, hsum, zero_add]
          omega
      · obtain ⟨bs, hlen, hsum⟩ := selectSum_cover cpvar (bitLen (M + 1) - 1)
          (v + 2 ^ bitLen (M + 1)).toNat (by
            rw [hsucc]
            have hb1 : -(M : Int) ≤ v := by omega
            have hc : ((2 ^ bitLen (M + 1) : Nat) : Int) = (2 : Int) ^ bitLen (M + 1) := by
              norm_cast
            omega)
        refine ⟨true :: bs, ?_, ?_⟩
        · simp [hlen, termChunksDesc_length]
        · simp only [selectSum, if_true, hsum]
          have hb2 : (M + 1 : Int) < 2 ^ bitLen (M + 1) := by exact_mod_cast hMlt
          have hnn : 0 ≤ v + 2 ^ bitLen (M + 1) := by omega
          rw [Int.toNat_of_nonneg hnn]
          ring
    · have hm1 : 0 ≤ minv := by omega
      have hnb : num_bits_for_range minv maxv = bitLen (maxv + 1).toNat := by
        simp [num_bits_for_range, hm1]
      have hterms : cp_var_bits_terms minv maxv cpvar 1 =
          termChunksDesc cpvar 1 (num_bits_for_range minv maxv) := by
        simp [cp_var_bits_terms, hm]
      rw [hterms, hnb]
      have hvlt : v.toNat < 2 ^ (bitLen (maxv + 1).toNat + 1) := by
        have h3 := lt_two_pow_bitLen (maxv + 1).toNat
        have h4 : 2 ^ bitLen (maxv + 1).toNat ≤ 2 ^ (bitLen (maxv + 1).toNat + 1) :=
          Nat.pow_le_pow_right (by norm_num) (by omega)
        have : v.toNat < (maxv + 1).toNat := by omega
        omega
      obtain ⟨bs, hlen, hsum⟩ := selectSum_cover cpvar (bitLen (maxv + 1).toNat) v.toNat hvlt
      refine ⟨bs, ?_, ?_⟩
      · simp [hlen, termChunksDesc_length]
      · rw [hsum]
        omega

/-- C2 witness: the amended theorem at `(min, max) = (-3, 5)`, `v = -2`. -/
theorem C2_num_bits_amended_witness :
    ((0 : Int) ≤ -3 → ((5 : Int) + 1).toNat < 2 ^ num_bits_for_range (-3) 5 ∧
       2 ^ num_bits_for_range (-3) 5 ≤ 2 * ((5 : Int) + 1).toNat) ∧
    ((-3 : Int) < 0 →
       max (5 : Int).natAbs (-3 : Int).natAbs + 1 < 2 ^ num_bits_for_range (-3) 5 ∧
       2 ^ num_bits_for_range (-3) 5 ≤ 2 * (max (5 : Int).natAbs (-3 : Int).natAbs + 1)) ∧
    Representable (cp_var_bits_terms (-3) 5 "V" 1) (-2) :=
  C2_num_bits_amended (-3) 5 (-2) "V" (by decide) (by decide) (by decide)

/-! ## IntLinear encode/justify shape (C5) -/
theorem encode_fields (env : JEnv) (d0 : IntLinearData) (o : List String) (d : IntLinearData)
    (h : IntLinearData.encode env d0 = (o, .ok d)) :
    d.constraint_name = d0.constraint_name ∧ d.fzn_id = d0.fzn_id ∧ d.coeffs = d0.coeffs ∧
    d.vars = d0.vars ∧ d.rhs = d0.rhs := by
  unfold IntLinearData.encode at h
  split at h
  · split at h
    · simp at h
    · simp only [Prod.mk.injEq, Except.ok.injEq] at h
      rw [← h.2]
      exact ⟨rfl, rfl, rfl, rfl, rfl⟩
  · split at h
    · simp at h
    · split at h
      · simp at h
      · simp only [Prod.mk.injEq, Except.ok.injEq] at h
        rw [← h.2]
        exact ⟨rfl, rfl, rfl, rfl, rfl⟩
  · simp at h

theorem encode_eq_shape (env : JEnv) (d0 : IntLinearData) (outE : List String)
    (d : IntLinearData)
    (h : IntLinearData.encode env d0 = (outE, .ok d))
    (heq : d.constraint_name = "int_lin_eq") :
    d.reif_implies_le = some (d.fzn_id ++ "_le") ∧
    d.reif_implies_ge = some (d.fzn_id ++ "_ge") ∧
    ∃ segs, encodeBitsSegs env (d.coeffs.zip d.vars) = .ok segs ∧
      outE = [(d.fzn_id ++ "_le") ++ " a" ++ segs ++ " " ++ "<=" ++ " " ++ toString d.rhs ++
                " :: " ++ d.constraint_name ++ ";",
              (d.fzn_id ++ "_ge") ++ " a" ++ segs ++ " " ++ ">=" ++ " " ++ toString d.rhs ++
                " :: " ++ d.constraint_name ++ ";"] := by
  have hf := encode_fields env d0 outE d h
  unfold IntLinearData.encode at h
  split at h
  · rename_i hname
    rw [hf.1, hname] at heq
    exact absurd heq (by decide)
  · rename_i hname
    split at h
    · simp at h
    · rename_i leLine hle
      split at h
      · simp at h
      · rename_i geLine hge
        simp only [Prod.mk.injEq, Except.ok.injEq] at h
        obtain ⟨ho, hd⟩ := h
        subst hd
        refine ⟨by simp [hf.2.1], by simp [hf.2.1], ?_⟩
        unfold encode_lin at hle hge
        split at hle
        · simp at hle
        · rename_i segs hsegs
          simp only [Except.ok.injEq] at hle
          split at hge
          · simp at hge
          · rename_i segs2 hsegs2
            simp only [Except.ok.injEq] at hge
            rw [hsegs2] at hsegs
            simp only [Except.ok.injEq] at hsegs
            refine ⟨segs, ?_, ?_⟩
            · simp only [hf.2.2.1, hf.2.2.2.1]
              rw [hsegs2, hsegs]
            · rw [← ho, ← hle, ← hge, hsegs]
  · rw [hf.1] at heq
    simp_all

theorem new_ok_encode (env : JEnv) (ant : String) (outE : List String) (d : IntLinearData)
    (h : IntLinearData.new env ant = (outE, .ok d)) :
    ∃ d0, IntLinearData.encode env d0 = (outE, .ok d) := by
  unfold IntLinearData.new at h
  dsimp only at h
  split at h <;> try simp at h
  split at h <;> try simp at h
  split at h <;> try simp at h
  split at h <;> try simp at h
  split at h <;> try simp at h
  split at h <;> try simp at h
  split at h <;> try simp at h
  split at h <;> try simp at h
  exact ⟨_, h⟩

theorem add_weighted_extends (b : PolBuilder) (x : String) (w : Nat) :
    ∃ t, (PolBuilder.add_weighted b x w).pol_line = b.pol_line ++ t := by
  unfold PolBuilder.add_weighted
  split
  · exact ⟨x ++ " " ++ toString w ++ " *" ++ " ", by simp [String.append_assoc]⟩
  · exact ⟨x ++ " " ++ toString w ++ " *" ++ " + ", by simp [String.append_assoc]⟩

theorem sub_pol_terms_extends (env : JEnv) (nids rvars : List String) (mult : Int) :
    ∀ (cvs : List (Int × String)) (b : PolBuilder) (st st1 : JState) (o1 : List String)
      (pol1 : PolBuilder),
    sub_pol_terms env nids rvars mult cvs b st = (st1, o1, .ok pol1) →
    ∃ t, pol1.pol_line = b.pol_line ++ t
  | [], b, st, st1, o1, pol1, h => by
    simp only [sub_pol_terms, Prod.mk.injEq, Except.ok.injEq] at h
    exact ⟨"", by rw [← h.2.2, String.append_empty]⟩
  | cv :: rest, b, st, st1, o1, pol1, h => by
    simp only [sub_pol_terms] at h
    split at h
    · split at h
      · simp at h
      · split at h
        · rename_i nid hnid hne
          obtain ⟨t1, ht1⟩ := add_weighted_extends b nid (cv.1.natAbs % 2 ^ 32)
          obtain ⟨t2, ht2⟩ := sub_pol_terms_extends env nids rvars mult rest _ st st1 o1 pol1 h
          exact ⟨t1 ++ t2, by rw [ht2, ht1, String.append_assoc]⟩
        · obtain ⟨t2, ht2⟩ := sub_pol_terms_extends env nids rvars mult rest _ st st1 o1 pol1 h
          exact ⟨t2, ht2⟩
    · split at h
      · simp at h
      · rename_i stb ob lbub hb
        have key : ∀ bX : PolBuilder, (∃ t0, bX.pol_line = b.pol_line ++ t0) →
            (sub_pol_terms env nids rvars mult rest bX stb).2.2 = .ok pol1 →
            ∃ t, pol1.pol_line = b.pol_line ++ t := by
          intro bX hb0 h3
          rcases hE : sub_pol_terms env nids rvars mult rest bX stb with ⟨sA, oA, rA⟩
          rw [hE] at h3
          dsimp only at h3
          rw [h3] at hE
          obtain ⟨t2, ht2⟩ := sub_pol_terms_extends env nids rvars mult rest bX stb sA oA pol1 hE
          obtain ⟨t0, ht0⟩ := hb0
          exact ⟨t0 ++ t2, by rw [ht2, ht0, String.append_assoc]⟩
        split at h
        · simp only [Prod.mk.injEq] at h
          exact key _ (add_weighted_extends b lbub.1 _) h.2.2
        · split at h
          · simp only [Prod.mk.injEq] at h
            exact key _ (add_weighted_extends b lbub.2 _) h.2.2
          · simp only [Prod.mk.injEq] at h
            exact key _ ⟨"", (String.append_empty _).symm⟩ h.2.2

theorem sub_lits_pol_shape (env : JEnv) (d : IntLinearData) (nids : List String)
    (c : PBConstraint) (enc_id : String) (mult : Int) (st st1 : JState) (o1 : List String)
    (h : sub_lits_into_ineq env d nids c enc_id mult st = (st1, o1, .ok ())) :
    ∃ bnd t, o1 = bnd ++ [("pol " ++ enc_id ++ " ") ++ t] := by
  unfold sub_lits_into_ineq at h
  split at h
  · simp at h
  · rename_i rvars hrv
    dsimp only at h
    split at h
    · simp at h
    · rename_i stA oA pol hsub
      simp only [Prod.mk.injEq] at h
      obtain ⟨t2, ht2⟩ := sub_pol_terms_extends env nids rvars mult (d.coeffs.zip d.vars)
        (PolBuilder.add PolBuilder.new enc_id) st stA oA pol hsub
      refine ⟨oA, t2 ++ ";", ?_⟩
      rw [← h.2.1]
      have hstart : (PolBuilder.add PolBuilder.new enc_id).pol_line =
          ("pol " ++ enc_id) ++ " " := rfl
      simp only [PolBuilder.done, ht2, hstart, String.append_assoc]

/-- **C5.** For an assertion whose antecedent resolves to an `int_lin_eq`
FlatZinc constraint, `IntLinearData::new` emits exactly two encoded axioms —
`<fzn_id>_le` with operator `<=` and `<fzn_id>_ge` with operator `>=`, both at
the constraint's right-hand side — and `IntLinearJustifier::justify` emits the
literal-definition lines, a `pol` chain seeded with the `_le` axiom built with
`mult = 1`, a `pol` chain seeded with the `_ge` axiom built with `mult = -1`,
and a final `rup` step over the original assertion's PB constraint. -/
theorem C5_int_lin_eq (env : JEnv) (ant : String) (outE : List String) (d : IntLinearData)
    (c : PBConstraint) (id_str : String) (st st' : JState) (outJ : List String)
    (hnew : IntLinearData.new env ant = (outE, .ok d))
    (heq : d.constraint_name = "int_lin_eq")
    (hj : int_linear_justify env d c id_str st = (st', outJ, .ok ())) :
    (d.reif_implies_le = some (d.fzn_id ++ "_le") ∧
     d.reif_implies_ge = some (d.fzn_id ++ "_ge") ∧
     ∃ segs,
       outE = [(d.fzn_id ++ "_le") ++ " a" ++ segs ++ " " ++ "<=" ++ " " ++
                 toString d.rhs ++ " :: " ++ d.constraint_name ++ ";",
               (d.fzn_id ++ "_ge") ++ " a" ++ segs ++ " " ++ ">=" ++ " " ++
                 toString d.rhs ++ " :: " ++ d.constraint_name ++ ";"]) ∧
    (∃ defLines pn st1 st2 o2 o3 bnd1 t1 bnd2 t2,
       ensure_all_lits_defined env true c.get_constraint_lits st = (st1, defLines, .ok pn) ∧
       sub_lits_into_ineq env d pn.2 c (d.fzn_id ++ "_le") 1 st1 = (st2, o2, .ok ()) ∧
       sub_lits_into_ineq env d pn.2 c (d.fzn_id ++ "_ge") (-1) st2 = (st', o3, .ok ()) ∧
       o2 = bnd1 ++ [("pol " ++ (d.fzn_id ++ "_le") ++ " ") ++ t1] ∧
       o3 = bnd2 ++ [("pol " ++ (d.fzn_id ++ "_ge") ++ " ") ++ t2] ∧
       outJ = defLines ++ o2 ++ o3 ++ [id_str ++ " rup " ++ c.to_pretty_string ++ ";"]) := by
  obtain ⟨d0, henc⟩ := new_ok_encode env ant outE d hnew
  obtain ⟨hle, hge, segs, hsegs, houtE⟩ := encode_eq_shape env d0 outE d henc heq
  refine ⟨⟨hle, hge, segs, houtE⟩, ?_⟩
  unfold int_linear_justify at hj
  split at hj
  · simp at hj
  · rename_i st1 o1 pn hall
    split at hj
    · simp at hj
    · split at hj
      · rename_i hnone
        rw [hle] at hnone
        simp at hnone
      · rename_i enc_id hsome
        rw [hle] at hsome
        simp only [Option.some.injEq] at hsome
        subst hsome
        split at hj
        · simp at hj
        · rename_i st2 o2 u1 hsub1
          split at hj
          · rename_i hc
            split at hj
            · rename_i hnone
              rw [hge] at hnone
              simp at hnone
            · rename_i ge_id hgsome
              rw [hge] at hgsome
              simp only [Option.some.injEq] at hgsome
              subst hgsome
              split at hj
              · simp at hj
              · rename_i st3 o3 u2 hsub2
                simp only [Prod.mk.injEq, Except.ok.injEq] at hj
                obtain ⟨hst, houtJ, -⟩ := hj
                obtain ⟨bnd1, t1, ho2⟩ :=
                  sub_lits_pol_shape env d pn.2 c (d.fzn_id ++ "_le") 1 st1 st2 o2 hsub1
                obtain ⟨bnd2, t2, ho3⟩ :=
                  sub_lits_pol_shape env d pn.2 c (d.fzn_id ++ "_ge") (-1) st2 st3 o3 hsub2
                subst hst
                exact ⟨o1, pn, st1, st2, o2, o3, bnd1, t1, bnd2, t2,
                       hall, hsub1, hsub2, ho2, ho3, by rw [← houtJ]⟩
          · rename_i hc
            rw [heq] at hc
            simp at hc

/-- Witness for **C5** at the S6 scenario: the hypotheses hold at
`env5`/`d5`/`c5`/`st5` by evaluation, and the theorem applies. -/
theorem C5_int_lin_eq_witness :
    IntLinearData.new env5 " @f0 " = (outE5, .ok d5) ∧
    d5.constraint_name = "int_lin_eq" ∧
    int_linear_justify env5 d5 c5 "@7" st5 = (st5', outJ5, .ok ()) ∧
    ((d5.reif_implies_le = some (d5.fzn_id ++ "_le") ∧
      d5.reif_implies_ge = some (d5.fzn_id ++ "_ge") ∧
      ∃ segs,
        outE5 = [(d5.fzn_id ++ "_le") ++ " a" ++ segs ++ " " ++ "<=" ++ " " ++
                   toString d5.rhs ++ " :: " ++ d5.constraint_name ++ ";",
                 (d5.fzn_id ++ "_ge") ++ " a" ++ segs ++ " " ++ ">=" ++ " " ++
                   toString d5.rhs ++ " :: " ++ d5.constraint_name ++ ";"]) ∧
     (∃ defLines pn st1 st2 o2 o3 bnd1 t1 bnd2 t2,
        ensure_all_lits_defined env5 true c5.get_constraint_lits st5 = (st1, defLines, .ok pn) ∧
        sub_lits_into_ineq env5 d5 pn.2 c5 (d5.fzn_id ++ "_le") 1 st1 = (st2, o2, .ok ()) ∧
        sub_lits_into_ineq env5 d5 pn.2 c5 (d5.fzn_id ++ "_ge") (-1) st2 = (st5', o3, .ok ()) ∧
        o2 = bnd1 ++ [("pol " ++ (d5.fzn_id ++ "_le") ++ " ") ++ t1] ∧
        o3 = bnd2 ++ [("pol " ++ (d5.fzn_id ++ "_ge") ++ " ") ++ t2] ∧
        outJ5 = defLines ++ o2 ++ o3 ++ ["@7" ++ " rup " ++ c5.to_pretty_string ++ ";"])) :=
  ⟨rfl, rfl, rfl, C5_int_lin_eq env5 " @f0 " outE5 d5 c5 "@7" st5 st5' outJ5 rfl rfl rfl⟩

/-! ## Trimmer liveness (C1) -/

theorem labelledIds_cons_sub (l : PLine) (ls : List PLine) :
    ∀ x ∈ labelledIds ls, x ∈ labelledIds (l :: ls) := by
  intro x hx
  cases l with
  | labelled id r => exact List.mem_cons_of_mem _ hx
  | endProof => exact hx
  | conclusionUnsat id => exact hx
  | output s => exact hx
  | preamble s => exact hx
  | del toks => exact hx
  | comment s => exact hx

theorem polRefsForward_tail (l : PLine) (ls : List PLine)
    (h : polRefsForward (l :: ls) = true) : polRefsForward ls = true := by
  cases l with
  | labelled id r =>
    cases r with
    | pol terms =>
      have h' : ((polOperands terms).all (fun o => (labelledIds ls).contains o)
          && polRefsForward ls) = true := h
      simp only [Bool.and_eq_true] at h'
      exact h'.2
    | a toks => exact h
    | other s => exact h
  | endProof => exact h
  | conclusionUnsat id => exact h
  | output s => exact h
  | preamble s => exact h
  | del toks => exact h
  | comment s => exact h

theorem labelledIds_nodup_tail (l : PLine) (ls : List PLine)
    (h : (labelledIds (l :: ls)).Nodup) : (labelledIds ls).Nodup := by
  cases l with
  | labelled id r => exact (List.nodup_cons.mp h).2
  | endProof => exact h
  | conclusionUnsat id => exact h
  | output s => exact h
  | preamble s => exact h
  | del toks => exact h
  | comment s => exact h

theorem polOperand_mem_tail :
    ∀ (ls : List PLine) (l : PLine), polRefsForward (l :: ls) = true →
    ∀ (i : String) (terms : List String) (o : String),
    PLine.labelled i (Rul.pol terms) ∈ l :: ls → o ∈ polOperands terms →
    o ∈ labelledIds ls
  | ls, l, hwf, i, terms, o, hmem, ho => by
    rcases List.mem_cons.mp hmem with he | hm
    · subst he
      have h' : ((polOperands terms).all (fun o => (labelledIds ls).contains o)
          && polRefsForward ls) = true := hwf
      simp only [Bool.and_eq_true] at h'
      have hall := h'.1
      have hc := List.all_eq_true.mp hall o ho
      simpa [List.contains, List.elem_eq_mem] using hc
    · match ls, hm with
      | l2 :: ls2, hm =>
        have hwf' := polRefsForward_tail l (l2 :: ls2) hwf
        exact labelledIds_cons_sub l2 ls2 o
          (polOperand_mem_tail ls2 l2 hwf' i terms o hm ho)

theorem liveFrom_mono {base base' : List String} {ls ls' : List PLine} {i : String}
    (hb : ∀ b ∈ base', LiveFrom base ls b) (hls : ∀ l ∈ ls', l ∈ ls)
    (h : LiveFrom base' ls' i) : LiveFrom base ls i := by
  induction h with
  | base h1 => exact hb _ h1
  | step h1 h2 h3 ih => exact LiveFrom.step ih (hls _ h2) h3

theorem liveFrom_cons_unused {base : List String} {ls : List PLine} {line : PLine} {i : String}
    (h : LiveFrom base (line :: ls) i)
    (hno : ∀ id terms, line = PLine.labelled id (Rul.pol terms) →
        ¬ LiveFrom base (line :: ls) id) :
    LiveFrom base ls i := by
  induction h with
  | base h1 => exact LiveFrom.base h1
  | step h1 h2 h3 ih =>
    rcases List.mem_cons.mp h2 with hh | hh
    · exact absurd h1 (hno _ _ hh.symm)
    · exact LiveFrom.step ih hh h3

theorem liveFrom_cons_pol {base : List String} {ls : List PLine} {pid : String}
    {terms : List String} {i : String}
    (h : LiveFrom base (PLine.labelled pid (Rul.pol terms) :: ls) i) :
    LiveFrom (polOperands terms ++ base) ls i := by
  induction h with
  | base h1 => exact LiveFrom.base (List.mem_append_right _ h1)
  | step h1 h2 h3 ih =>
    rcases List.mem_cons.mp h2 with hh | hh
    · injection hh with hid hr
      injection hr with hterms
      subst hterms
      exact LiveFrom.base (List.mem_append_left _ h3)
    · exact LiveFrom.step ih hh h3

theorem head_not_live {base : List String} {ls : List PLine} {id : String} {rule : Rul}
    (hwf : polRefsForward (PLine.labelled id rule :: ls) = true)
    (hnd : (labelledIds (PLine.labelled id rule :: ls)).Nodup)
    (hb : id ∉ base)
    (h : LiveFrom base (PLine.labelled id rule :: ls) id) : False := by
  cases h with
  | base h1 => exact hb h1
  | step h1 h2 h3 =>
    have hmem : id ∈ labelledIds ls := polOperand_mem_tail ls _ hwf _ _ _ h2 h3
    exact (List.nodup_cons.mp hnd).1 hmem

theorem skip_iff {base : List String} {line : PLine} {rest out2 : List PLine}
    {id : String} {rule : Rul}
    (hhead : PLine.labelled id rule = line → ¬ LiveFrom base (line :: rest) id)
    (hno : ∀ pid terms, line = PLine.labelled pid (Rul.pol terms) →
        ¬ LiveFrom base (line :: rest) pid)
    (hiff : PLine.labelled id rule ∈ out2 ↔
        PLine.labelled id rule ∈ rest ∧ LiveFrom base rest id) :
    (PLine.labelled id rule ∈ out2 ↔
      PLine.labelled id rule ∈ line :: rest ∧ LiveFrom base (line :: rest) id) := by
  constructor
  · intro hm
    obtain ⟨h1, h2⟩ := hiff.mp hm
    exact ⟨List.mem_cons_of_mem _ h1,
      liveFrom_mono (fun b hb => LiveFrom.base hb) (fun l hl => List.mem_cons_of_mem _ hl) h2⟩
  · rintro ⟨h1, h2⟩
    rcases List.mem_cons.mp h1 with he | h1'
    · exact absurd h2 (hhead he)
    · exact hiff.mpr ⟨h1', liveFrom_cons_unused h2 hno⟩

theorem emit_iff {base base1 : List String} {line : PLine} {rest out2 : List PLine}
    {id : String} {rule : Rul}
    (hup : ∀ j, LiveFrom base1 rest j → LiveFrom base (line :: rest) j)
    (hdown : ∀ j, LiveFrom base (line :: rest) j → LiveFrom base1 rest j)
    (hheadlive : PLine.labelled id rule = line → LiveFrom base (line :: rest) id)
    (hiff : PLine.labelled id rule ∈ out2 ↔
        PLine.labelled id rule ∈ rest ∧ LiveFrom base1 rest id) :
    ((PLine.labelled id rule = line ∨ PLine.labelled id rule ∈ out2) ↔
      PLine.labelled id rule ∈ line :: rest ∧ LiveFrom base (line :: rest) id) := by
  constructor
  · rintro (he | hm)
    · exact ⟨he ▸ List.mem_cons_self _ _, hheadlive he⟩
    · obtain ⟨h1, h2⟩ := hiff.mp hm
      exact ⟨List.mem_cons_of_mem _ h1, hup _ h2⟩
  · rintro ⟨h1, h2⟩
    rcases List.mem_cons.mp h1 with he | h1'
    · exact Or.inl he
    · exact Or.inr (hiff.mpr ⟨h1', hdown _ h2⟩)

theorem mem_dels_append {dels rest2 : List PLine} {id : String} {rule : Rul}
    (hdels : ∀ l ∈ dels, ∃ ts, l = PLine.del ts) :
    (PLine.labelled id rule ∈ dels ++ rest2) ↔ PLine.labelled id rule ∈ rest2 := by
  rw [List.mem_append]
  constructor
  · rintro (h1 | h2)
    · obtain ⟨ts, hts⟩ := hdels _ h1
      exact absurd hts (by simp)
    · exact h2
  · exact Or.inr

theorem processPolTerms_marked (cfg : TrimmerConfig) :
    ∀ (ts : List String) (st st' : TState) (dels : List PLine),
    processPolTerms cfg st ts = .ok (st', dels) →
    ∀ x, x ∈ st'.marked_for_output ↔ x ∈ polOperands ts ∨ x ∈ st.marked_for_output
  | [], st, st', dels, h => by
    simp only [processPolTerms, Except.ok.injEq, Prod.mk.injEq] at h
    rw [← h.1]
    intro x
    simp [polOperands]
  | t :: ts, st, st', dels, h => by
    simp only [processPolTerms] at h
    split at h
    · rename_i hsep
      have hpo : polOperands (t :: ts) = polOperands ts :=
        List.filter_cons_of_neg
          (by show ¬(!(t == "+" || t == "s" || t == ";")) = true; rw [hsep]; decide)
      rw [hpo]
      exact processPolTerms_marked cfg ts st st' dels h
    · rename_i hsep
      have hb : (t == "+" || t == "s" || t == ";") = false := by
        cases hB : (t == "+" || t == "s" || t == ";")
        · rfl
        · exact absurd hB hsep
      have hpo : polOperands (t :: ts) = t :: polOperands ts :=
        List.filter_cons_of_pos
          (by show (!(t == "+" || t == "s" || t == ";")) = true; rw [hb]; rfl)
      split at h
      · simp at h
      · split at h
        · rename_i hmk
          have htm : t ∈ st.marked_for_output := by
            simpa [List.contains, List.elem_eq_mem] using hmk
          have hiff := processPolTerms_marked cfg ts st st' dels h
          intro x
          rw [hpo, List.mem_cons, hiff x]
          constructor
          · rintro (h1 | h2)
            · exact Or.inl (Or.inr h1)
            · exact Or.inr h2
          · rintro ((rfl | h1) | h2)
            · exact Or.inr htm
            · exact Or.inl h1
            · exact Or.inr h2
        · split at h
          · rename_i st2 out2 hrec
            simp only [Except.ok.injEq, Prod.mk.injEq] at h
            have hiff := processPolTerms_marked cfg ts
              { st with marked_for_output := t :: st.marked_for_output } st2 out2 hrec
            intro x
            rw [hpo, List.mem_cons, ← h.1, hiff x]
            dsimp only
            rw [List.mem_cons]
            constructor
            · rintro (h1 | rfl | h2)
              · exact Or.inl (Or.inr h1)
              · exact Or.inl (Or.inl rfl)
              · exact Or.inr h2
            · rintro ((rfl | h1) | h2)
              · exact Or.inr (Or.inl rfl)
              · exact Or.inl h1
              · exact Or.inr (Or.inr h2)
          · simp at h

theorem processLits_spec :
    ∀ (toks : List String) (st st2 : TState) (out : List PLine),
    processLits st toks = (st2, out) →
    st2.marked_for_output = st.marked_for_output ∧ ∀ l ∈ out, ∃ ts, l = PLine.del ts
  | [], st, st2, out, h => by
    simp only [processLits, Prod.mk.injEq] at h
    rw [← h.1, ← h.2]
    exact ⟨rfl, by simp⟩
  | tok :: rest, st, st2, out, h => by
    simp only [processLits] at h
    split at h
    · simp only [Prod.mk.injEq] at h
      rw [← h.1, ← h.2]
      exact ⟨rfl, by simp⟩
    · generalize hlit : (if strStarts tok "~" then tok.drop 1 else tok) = lit at h
      split at h
      · exact processLits_spec rest st st2 out h
      · rcases hrec : processLits { st with lits_seen := lit :: st.lits_seen } rest
          with ⟨st3, out3⟩
        rw [hrec] at h
        dsimp only at h
        simp only [Prod.mk.injEq] at h
        obtain ⟨hs, ho⟩ := h
        obtain ⟨h1, h2⟩ := processLits_spec rest _ st3 out3 hrec
        refine ⟨by rw [← hs]; exact h1, ?_⟩
        intro l hl
        rw [← ho] at hl
        rcases List.mem_cons.mp hl with rfl | hl'
        · exact ⟨_, rfl⟩
        · rcases List.mem_cons.mp hl' with rfl | hl''
          · exact ⟨_, rfl⟩
          · exact h2 l hl''

theorem skip_plain_iff {base : List String} {line : PLine} {rest out2 : List PLine}
    {id : String} {rule : Rul}
    (hnl : ∀ i r, line ≠ PLine.labelled i r)
    (hiff : PLine.labelled id rule ∈ out2 ↔
        PLine.labelled id rule ∈ rest ∧ LiveFrom base rest id) :
    (PLine.labelled id rule ∈ out2 ↔
      PLine.labelled id rule ∈ line :: rest ∧ LiveFrom base (line :: rest) id) := by
  refine skip_iff ?_ ?_ hiff
  · intro he
    exact absurd he.symm (hnl _ _)
  · intro pid terms he
    exact absurd he (hnl _ _)

theorem skip_labelled_iff {base : List String} {lid : String} {lrule : Rul}
    {rest out2 : List PLine} {id : String} {rule : Rul}
    (hwf : polRefsForward (PLine.labelled lid lrule :: rest) = true)
    (hnd : (labelledIds (PLine.labelled lid lrule :: rest)).Nodup)
    (hmk : lid ∉ base)
    (hiff : PLine.labelled id rule ∈ out2 ↔
        PLine.labelled id rule ∈ rest ∧ LiveFrom base rest id) :
    (PLine.labelled id rule ∈ out2 ↔
      PLine.labelled id rule ∈ PLine.labelled lid lrule :: rest ∧
      LiveFrom base (PLine.labelled lid lrule :: rest) id) := by
  refine skip_iff ?_ ?_ hiff
  · intro he hl
    injection he with h1 h2
    rw [h1] at hl
    exact head_not_live hwf hnd hmk hl
  · intro pid terms he hl
    injection he with h1 h2
    rw [← h1] at hl
    exact head_not_live hwf hnd hmk hl

theorem emit_plain_iff {base : List String} {line : PLine} {rest out2 : List PLine}
    {id : String} {rule : Rul}
    (hnl : ∀ i r, line ≠ PLine.labelled i r)
    (hiff : PLine.labelled id rule ∈ out2 ↔
        PLine.labelled id rule ∈ rest ∧ LiveFrom base rest id) :
    ((PLine.labelled id rule = line ∨ PLine.labelled id rule ∈ out2) ↔
      PLine.labelled id rule ∈ line :: rest ∧ LiveFrom base (line :: rest) id) := by
  refine emit_iff ?_ ?_ ?_ hiff
  · intro j hj
    exact liveFrom_mono (fun b hb => LiveFrom.base hb)
      (fun l hl => List.mem_cons_of_mem _ hl) hj
  · intro j hj
    exact liveFrom_cons_unused hj (fun pid terms he => absurd he (hnl _ _))
  · intro he
    exact absurd he.symm (hnl _ _)

theorem emit_marked_a_iff {base : List String} {lid : String} {toks : List String}
    {rest out2 : List PLine} {id : String} {rule : Rul}
    (hlidm : lid ∈ base)
    (hiff : PLine.labelled id rule ∈ out2 ↔
        PLine.labelled id rule ∈ rest ∧ LiveFrom base rest id) :
    ((PLine.labelled id rule = PLine.labelled lid (Rul.a toks) ∨
        PLine.labelled id rule ∈ out2) ↔
      PLine.labelled id rule ∈ PLine.labelled lid (Rul.a toks) :: rest ∧
      LiveFrom base (PLine.labelled lid (Rul.a toks) :: rest) id) := by
  refine emit_iff ?_ ?_ ?_ hiff
  · intro j hj
    exact liveFrom_mono (fun b hb => LiveFrom.base hb)
      (fun l hl => List.mem_cons_of_mem _ hl) hj
  · intro j hj
    refine liveFrom_cons_unused hj ?_
    intro pid terms he
    injection he with h1 h2
    simp at h2
  · intro he
    injection he with h1 h2
    rw [h1]
    exact LiveFrom.base hlidm

theorem emit_marked_pol_iff {base base1 : List String} {lid : String} {terms : List String}
    {rest out2 : List PLine} {id : String} {rule : Rul}
    (hlidm : lid ∈ base)
    (hmark : ∀ x, x ∈ base1 ↔ x ∈ polOperands terms ∨ x ∈ base)
    (hiff : PLine.labelled id rule ∈ out2 ↔
        PLine.labelled id rule ∈ rest ∧ LiveFrom base1 rest id) :
    ((PLine.labelled id rule = PLine.labelled lid (Rul.pol terms) ∨
        PLine.labelled id rule ∈ out2) ↔
      PLine.labelled id rule ∈ PLine.labelled lid (Rul.pol terms) :: rest ∧
      LiveFrom base (PLine.labelled lid (Rul.pol terms) :: rest) id) := by
  refine emit_iff ?_ ?_ ?_ hiff
  · intro j hj
    refine liveFrom_mono ?_ (fun l hl => List.mem_cons_of_mem _ hl) hj
    intro b hb
    rcases (hmark b).mp hb with hob | hsb
    · exact LiveFrom.step (LiveFrom.base hlidm) (List.mem_cons_self _ _) hob
    · exact LiveFrom.base hsb
  · intro j hj
    refine liveFrom_mono ?_ (fun l hl => hl) (liveFrom_cons_pol hj)
    intro b hb
    rcases List.mem_append.mp hb with h1 | h1
    · exact LiveFrom.base ((hmark b).mpr (Or.inl h1))
    · exact LiveFrom.base ((hmark b).mpr (Or.inr h1))
  · intro he
    injection he with h1 h2
    rw [h1]
    exact LiveFrom.base hlidm

theorem trimLoop_live (cfg : TrimmerConfig) :
    ∀ (ls : List PLine) (st st' : TState) (out : List PLine),
    polRefsForward ls = true → (labelledIds ls).Nodup →
    trimLoop cfg st ls = .ok (st', out) →
    ∀ id rule, PLine.labelled id rule ∈ out ↔
      PLine.labelled id rule ∈ ls ∧ LiveFrom st.marked_for_output ls id
  | [], st, st', out, hwf, hnd, h, id, rule => by
    simp only [trimLoop, Except.ok.injEq, Prod.mk.injEq] at h
    rw [← h.2]
    simp
  | line :: rest, st, st', out, hwf, hnd, h, id, rule => by
    have hwf' := polRefsForward_tail line rest hwf
    have hnd' := labelledIds_nodup_tail line rest hnd
    cases line with
    | labelled lid lrule =>
      cases lrule with
      | pol terms =>
        simp only [trimLoop] at h
        split at h
        · rename_i hmk
          split at h
          · simp at h
          · rename_i st1 dels hpp
            split at h
            · simp at h
            · rename_i st2 out2 hrec
              simp only [Except.ok.injEq, Prod.mk.injEq] at h
              obtain ⟨hst, hout⟩ := h
              have hlidm : lid ∈ st.marked_for_output := by
                simpa [List.contains, List.elem_eq_mem] using hmk
              have hmark := processPolTerms_marked cfg terms st st1 dels hpp
              have hdels := processPolTerms_ok_dels cfg terms st st1 dels hpp
              have hiff := trimLoop_live cfg rest st1 st2 out2 hwf' hnd' hrec id rule
              rw [← hout,
                mem_dels_append (fun l hl => (hdels l hl).elim (fun tok ht => ⟨[tok, ";"], ht⟩)),
                List.mem_cons]
              exact emit_marked_pol_iff hlidm hmark hiff
        · rename_i hmk
          have hmk' : lid ∉ st.marked_for_output := by
            intro hm
            exact hmk (by simpa [List.contains, List.elem_eq_mem] using hm)
          exact skip_labelled_iff hwf hnd hmk'
            (trimLoop_live cfg rest st st' out hwf' hnd' h id rule)
      | a toks =>
        simp only [trimLoop] at h
        split at h
        · rename_i hmk
          have hlidm : lid ∈ st.marked_for_output := by
            simpa [List.contains, List.elem_eq_mem] using hmk
          split at h
          · simp at h
          · rename_i st2 out2 hrec
            simp only [Except.ok.injEq, Prod.mk.injEq] at h
            obtain ⟨hst, hout⟩ := h
            rcases hPL : processLits st toks with ⟨stp, outp⟩
            obtain ⟨hsp1, hsp2⟩ := processLits_spec toks st stp outp hPL
            by_cases hld : cfg.lit_deletion = true
            · rw [if_pos hld, hPL] at hrec hout
              dsimp only at hrec hout
              have hiff := trimLoop_live cfg rest stp st2 out2 hwf' hnd' hrec id rule
              rw [hsp1] at hiff
              rw [← hout, mem_dels_append hsp2, List.mem_cons]
              exact emit_marked_a_iff hlidm hiff
            · rw [if_neg hld] at hrec hout
              dsimp only at hrec hout
              have hiff := trimLoop_live cfg rest st st2 out2 hwf' hnd' hrec id rule
              rw [← hout, List.nil_append, List.mem_cons]
              exact emit_marked_a_iff hlidm hiff
        · rename_i hmk
          have hmk' : lid ∉ st.marked_for_output := by
            intro hm
            exact hmk (by simpa [List.contains, List.elem_eq_mem] using hm)
          exact skip_labelled_iff hwf hnd hmk'
            (trimLoop_live cfg rest st st' out hwf' hnd' h id rule)
      | other r =>
        simp only [trimLoop] at h
        split at h
        · simp at h
        · rename_i hmk
          have hmk' : lid ∉ st.marked_for_output := by
            intro hm
            exact hmk (by simpa [List.contains, List.elem_eq_mem] using hm)
          exact skip_labelled_iff hwf hnd hmk'
            (trimLoop_live cfg rest st st' out hwf' hnd' h id rule)
    | preamble s =>
      simp only [trimLoop] at h
      split at h
      · simp at h
      · rename_i st2 out2 hrec
        simp only [Except.ok.injEq, Prod.mk.injEq] at h
        obtain ⟨hst, hout⟩ := h
        have hiff := trimLoop_live cfg rest st st2 out2 hwf' hnd' hrec id rule
        rw [← hout, List.mem_cons]
        exact emit_plain_iff (by intro i r hne; cases hne) hiff
    | del toks =>
      simp only [trimLoop] at h
      split at h
      · exact skip_plain_iff (by intro i r hne; cases hne)
          (trimLoop_live cfg rest st st' out hwf' hnd' h id rule)
      · split at h
        · simp at h
        · rename_i tok toks2
          have hiff := trimLoop_live cfg rest
            { st with marked_for_deletion :=
                (if strEnds tok ";" then tok.dropRight 2 else tok) :: st.marked_for_deletion }
            st' out hwf' hnd' h id rule
          exact skip_plain_iff (by intro i r hne; cases hne) hiff
    | endProof =>
      simp only [trimLoop] at h
      exact skip_plain_iff (by intro i r hne; cases hne)
        (trimLoop_live cfg rest st st' out hwf' hnd' h id rule)
    | conclusionUnsat cid =>
      simp only [trimLoop] at h
      exact skip_plain_iff (by intro i r hne; cases hne)
        (trimLoop_live cfg rest st st' out hwf' hnd' h id rule)
    | output s =>
      simp only [trimLoop] at h
      exact skip_plain_iff (by intro i r hne; cases hne)
        (trimLoop_live cfg rest st st' out hwf' hnd' h id rule)
    | comment s =>
      simp only [trimLoop] at h
      exact skip_plain_iff (by intro i r hne; cases hne)
        (trimLoop_live cfg rest st st' out hwf' hnd' h id rule)

/-- **C1.** For an input proof ending in an UNSAT conclusion (reverse-order
header `end pseudo-Boolean`, `conclusion UNSAT : <cid> ;`, `output …`), with
forward `pol` references and distinct labels, the trimmer emits exactly the
`@`-labelled lines whose ids are transitively referenced from the
contradiction id through `pol` operand lists (the live set); and on the S1
proof the trimmed output after the plumbing re-reversal is the preamble,
`@1`'s assertion, the `pol` line and the conclusion lines, with `@2`
omitted. -/
theorem C1_trim_live (cfg : TrimmerConfig) (cid s : String) (rest out : List PLine)
    (hwf : polRefsForward rest = true) (hnd : (labelledIds rest).Nodup)
    (htr : trim cfg
      (PLine.endProof :: PLine.conclusionUnsat cid :: PLine.output s :: rest) = .ok out) :
    (∀ id rule, PLine.labelled id rule ∈ out ↔
        PLine.labelled id rule ∈ rest ∧ LiveFrom [cid] rest id) ∧
    Except.map List.reverse (run_trimmer {} s1Rev) = .ok s1Forward := by
  refine ⟨?_, rfl⟩
  simp only [trim] at htr
  split at htr
  · simp at htr
  · rename_i st2 out2 hrec
    simp only [Except.ok.injEq] at htr
    intro id rule
    have hiff := trimLoop_live cfg rest ⟨[cid], [], []⟩ st2 out2 hwf hnd hrec id rule
    rw [← htr]
    simp only [List.mem_cons]
    constructor
    · rintro (he | he | he | hm)
      · exact absurd he (by simp)
      · exact absurd he (by simp)
      · exact absurd he (by simp)
      · exact hiff.mp hm
    · intro hr
      exact Or.inr (Or.inr (Or.inr (hiff.mpr hr)))

/-- Witness for **C1** at the S1 scenario: the well-formedness hypotheses and
the trim equation hold by evaluation, and the theorem applies. -/
theorem C1_trim_live_witness :
    polRefsForward s1Loop = true ∧ (labelledIds s1Loop).Nodup ∧
    trim {} (PLine.endProof :: PLine.conclusionUnsat "@3" ::
      PLine.output "output NONE" :: s1Loop) = .ok s1TrimmedRev ∧
    ((∀ id rule, PLine.labelled id rule ∈ s1TrimmedRev ↔
        PLine.labelled id rule ∈ s1Loop ∧ LiveFrom ["@3"] s1Loop id) ∧
     Except.map List.reverse (run_trimmer {} s1Rev) = .ok s1Forward) :=
  ⟨by decide, by decide, rfl,
   C1_trim_live {} "@3" "output NONE" s1Loop s1TrimmedRev (by decide) (by decide) rfl⟩

end PBarber
